import Mathlib

/-!
Verification development for the finalizer-scanning core of `pkg/kor/finalizers.go`
(repository Yuni-sa/kor).

The Go code is shallowly embedded: external collaborators (the discovery client,
the dynamic list client, `DeleteResource` / `DeleteResourceWithFinalizer`,
`SetNamespaceList`, `FormatOutputFromMap`, `json.MarshalIndent`,
`unusedResourceFormatter`, and the filter predicates `HasExcludedLabel` /
`HasIncludedAge`) are modelled as explicit function parameters, while the control
flow of `CheckFinalizers`, `getResourcesWithFinalizersPendingDeletion`,
`getNamespacedResourcesWithFinalizersPendingDeletion` and `GetUnusedfinalizers`
is translated statement by statement.

Go maps accumulated by `m[k] = append(m[k], v)` are modelled as association
lists with first-occurrence update; `os.Exit(1)` is modelled as a dedicated
outcome constructor, and a Go `(value, error)` return with non-nil error as an
`errored` constructor carrying the partially built value.
-/

/-- kor/used label map; Go `item.GetLabels()` yields `map[string]string`. -/
abbrev Labels := List (String × String)

/-- Projection of a listed unstructured object: exactly the fields the Go code
reads (`GetName`, `GetNamespace`, `GetLabels`, `GetCreationTimestamp`,
`GetFinalizers`, `GetDeletionTimestamp`). Timestamps are abstract `Nat` ticks;
`deletionTimestamp = none` models a nil `*metav1.Time`. -/
structure Item where
  name : String
  ns : String
  labels : Labels
  creationTimestamp : Nat
  finalizers : List String
  deletionTimestamp : Option Nat
deriving Repr, DecidableEq

/-- One entry of `apiResourceList.APIResources` (name, Namespaced, Verbs). -/
structure APIResource where
  name : String
  namespaced : Bool
  verbs : List String
deriving Repr, DecidableEq

/-- One `metav1.APIResourceList` of the discovery catalog. -/
structure APIResourceList where
  groupVersion : String
  apiResources : List APIResource
deriving Repr, DecidableEq

/-- The cluster-facing collaborators used by the scan functions.
`serverPreferredResources` models `clientset.Discovery().ServerPreferredResources()`;
`parseGroupVersion` models `schema.ParseGroupVersion`; `listResource gv name ns`
models `dynamicClient.Resource(gv.WithResource(name)).Namespace(ns).List(...)`,
where the namespace argument `""` is `metav1.NamespaceAll`. -/
structure Cluster where
  serverPreferredResources : Except String (List APIResourceList)
  parseGroupVersion : String → Except String Unit
  listResource : String → String → String → Except String (List Item)

/-- The caller-supplied filter options. The predicates `HasExcludedLabel` and
`HasIncludedAge` live outside this file's source; the Go code only consumes
their boolean verdict (discarding the error component), so they are modelled
abstractly as the boolean functions the options induce. -/
structure FilterOptions where
  hasExcludedLabel : Labels → Bool
  hasIncludedAge : Nat → Bool

/-- Go map read `labels[k]`: the zero value `""` when the key is absent. -/
def labelGet (labels : Labels) (k : String) : String :=
  match labels.find? (fun p => p.1 == k) with
  | some p => p.2
  | none => ""

/-- `CheckFinalizers` from finalizers.go: pending deletion iff the finalizer
list is non-empty and the deletion timestamp is non-nil. -/
def CheckFinalizers (finalizers : List String) (deletionTimestamp : Option Nat) : Bool :=
  if finalizers.length > 0 && deletionTimestamp.isSome then true else false

/-- Inner map of the accumulator: resource-type name to object names,
Go `map[string][]string`. -/
abbrev TypeMap := List (String × List String)

/-- Outer accumulator: namespace to TypeMap, Go `map[string]map[string][]string`. -/
abbrev NsMap := List (String × TypeMap)

/-- Go `m[t] = append(m[t], n)` on a `map[string][]string`. -/
def typeMapAppend (m : TypeMap) (t n : String) : TypeMap :=
  match m with
  | [] => [(t, [n])]
  | (k, vs) :: rest =>
    if k = t then (k, vs ++ [n]) :: rest else (k, vs) :: typeMapAppend rest t n

/-- Go `if m[ns] == nil { m[ns] = make(...) }; m[ns][t] = append(m[ns][t], n)`. -/
def nsMapAppend (m : NsMap) (ns t n : String) : NsMap :=
  match m with
  | [] => [(ns, typeMapAppend [] t n)]
  | (k, tm) :: rest =>
    if k = ns then (k, typeMapAppend tm t n) :: rest else (k, tm) :: nsMapAppend rest ns t n

/-- Go map assignment `m[k] = v` (replace or insert). -/
def nsMapSet (m : NsMap) (k : String) (v : TypeMap) : NsMap :=
  match m with
  | [] => [(k, v)]
  | (k', v') :: rest =>
    if k' = k then (k, v) :: rest else (k', v') :: nsMapSet rest k v

/-- Lookup `m[t]` then membership of `n`, for stating properties of TypeMaps. -/
def typeMapHas : TypeMap → String → String → Bool
  | [], _, _ => false
  | (k, names) :: rest, t, n => if k = t then names.contains n else typeMapHas rest t n

/-- Lookup `m[ns][t]` then membership of `n`, for stating properties of NsMaps. -/
def nsMapHas : NsMap → String → String → String → Bool
  | [], _, _, _ => false
  | (k, tm) :: rest, ns, t, n => if k = ns then typeMapHas tm t n else nsMapHas rest ns t n

/-- Outcome of a scan function: `exitProcess c` models `os.Exit(c)`;
`errored m e` models `return m, err` with non-nil `err`; `ok m` models
`return m, nil`. -/
inductive ScanResult (α : Type) where
  | exitProcess (code : Nat)
  | errored (resultSoFar : α) (err : String)
  | ok (result : α)
deriving Repr, DecidableEq

/-- The map a scan produced, whether it returned it with or without an error. -/
def scanValue : ScanResult α → Option α
  | .exitProcess _ => none
  | .errored m _ => some m
  | .ok m => some m

/-- Per-item body of the global scan loop: the filter pipeline
(kor/used label, excluded labels, age) short-circuits via `continue`, then
`CheckFinalizers` guards bucketing the name under the item's own namespace. -/
def processItemGlobal (filterOpts : FilterOptions) (resourceName : String)
    (acc : NsMap) (item : Item) : NsMap :=
  if labelGet item.labels "kor/used" = "true" then acc
  else if filterOpts.hasExcludedLabel item.labels then acc
  else if !(filterOpts.hasIncludedAge item.creationTimestamp) then acc
  else if CheckFinalizers item.finalizers item.deletionTimestamp then
    nsMapAppend acc item.ns resourceName item.name
  else acc

/-- `for _, item := range resourceList.Items` of the global scan. -/
def processItemsGlobal (filterOpts : FilterOptions) (resourceName : String) :
    List Item → NsMap → NsMap
  | [], acc => acc
  | item :: rest, acc =>
    processItemsGlobal filterOpts resourceName rest (processItemGlobal filterOpts resourceName acc item)

/-- `for _, resourceType := range apiResourceList.APIResources` of the global
scan: namespaced+listable gate, all-namespaces list call (scope `""`), a
failed list call is skipped with `continue`. -/
def processResourcesGlobal (listRes : String → String → String → Except String (List Item))
    (filterOpts : FilterOptions) (gvStr : String) :
    List APIResource → NsMap → NsMap
  | [], acc => acc
  | r :: rest, acc =>
    if r.namespaced && r.verbs.contains "list" then
      match listRes gvStr r.name "" with
      | .error _ => processResourcesGlobal listRes filterOpts gvStr rest acc
      | .ok items =>
        processResourcesGlobal listRes filterOpts gvStr rest
          (processItemsGlobal filterOpts r.name items acc)
    else processResourcesGlobal listRes filterOpts gvStr rest acc

/-- `for _, apiResourceList := range resourceTypes` of the global scan: a
group/version parse failure returns the partial map together with the error. -/
def processCatalogGlobal (parseGV : String → Except String Unit)
    (listRes : String → String → String → Except String (List Item))
    (filterOpts : FilterOptions) :
    List APIResourceList → NsMap → ScanResult NsMap
  | [], acc => .ok acc
  | arl :: rest, acc =>
    match parseGV arl.groupVersion with
    | .error e => .errored acc e
    | .ok _ =>
      processCatalogGlobal parseGV listRes filterOpts rest
        (processResourcesGlobal listRes filterOpts arl.groupVersion arl.apiResources acc)

/-- `getResourcesWithFinalizersPendingDeletion` (global scan): a discovery
failure prints and calls `os.Exit(1)`; the `namespaces` parameter is received
but never used by the body (the list call is all-namespaces). -/
def getResourcesWithFinalizersPendingDeletion (c : Cluster) (filterOpts : FilterOptions)
    (namespaces : List String) : ScanResult NsMap :=
  match c.serverPreferredResources with
  | .error _ => .exitProcess 1
  | .ok resourceTypes =>
    processCatalogGlobal c.parseGroupVersion c.listResource filterOpts resourceTypes []

/-- Per-item body of the namespaced scan loop: same filter pipeline and
`CheckFinalizers` guard, but the name is keyed by resource type only. -/
def processItemNamespaced (filterOpts : FilterOptions) (resourceName : String)
    (acc : TypeMap) (item : Item) : TypeMap :=
  if labelGet item.labels "kor/used" = "true" then acc
  else if filterOpts.hasExcludedLabel item.labels then acc
  else if !(filterOpts.hasIncludedAge item.creationTimestamp) then acc
  else if CheckFinalizers item.finalizers item.deletionTimestamp then
    typeMapAppend acc resourceName item.name
  else acc

/-- `for _, item := range resourceList.Items` of the namespaced scan. -/
def processItemsNamespaced (filterOpts : FilterOptions) (resourceName : String) :
    List Item → TypeMap → TypeMap
  | [], acc => acc
  | item :: rest, acc =>
    processItemsNamespaced filterOpts resourceName rest
      (processItemNamespaced filterOpts resourceName acc item)

/-- Resource loop of the namespaced scan: the list call is scoped to the one
namespace; a failed list call is skipped with `continue`. -/
def processResourcesNamespaced (listRes : String → String → String → Except String (List Item))
    (filterOpts : FilterOptions) (gvStr : String) (ns : String) :
    List APIResource → TypeMap → TypeMap
  | [], acc => acc
  | r :: rest, acc =>
    if r.namespaced && r.verbs.contains "list" then
      match listRes gvStr r.name ns with
      | .error _ => processResourcesNamespaced listRes filterOpts gvStr ns rest acc
      | .ok items =>
        processResourcesNamespaced listRes filterOpts gvStr ns rest
          (processItemsNamespaced filterOpts r.name items acc)
    else processResourcesNamespaced listRes filterOpts gvStr ns rest acc

/-- Catalog loop of the namespaced scan. -/
def processCatalogNamespaced (parseGV : String → Except String Unit)
    (listRes : String → String → String → Except String (List Item))
    (filterOpts : FilterOptions) (ns : String) :
    List APIResourceList → TypeMap → ScanResult TypeMap
  | [], acc => .ok acc
  | arl :: rest, acc =>
    match parseGV arl.groupVersion with
    | .error e => .errored acc e
    | .ok _ =>
      processCatalogNamespaced parseGV listRes filterOpts ns rest
        (processResourcesNamespaced listRes filterOpts arl.groupVersion ns arl.apiResources acc)

/-- `getNamespacedResourcesWithFinalizersPendingDeletion` (scoped scan). -/
def getNamespacedResourcesWithFinalizersPendingDeletion (c : Cluster)
    (filterOpts : FilterOptions) (ns : String) : ScanResult TypeMap :=
  match c.serverPreferredResources with
  | .error _ => .exitProcess 1
  | .ok resourceTypes =>
    processCatalogNamespaced c.parseGroupVersion c.listResource filterOpts ns resourceTypes []

/-- `IncludeExcludeLists`: the namespace include/exclude inputs; only their
emptiness drives the mode dispatch in `GetUnusedfinalizers`. -/
structure IncludeExcludeLists where
  IncludeListStr : List String
  ExcludeListStr : List String
deriving Repr, DecidableEq

/-- The two fields of `Opts` read by `GetUnusedfinalizers`. -/
structure Opts where
  deleteFlag : Bool
  noInteractive : Bool
deriving Repr, DecidableEq

/-- Which delete helper was invoked: `DeleteResourceWithFinalizer` (global
branch) or `DeleteResource` (scoped branch). -/
inductive DeletePath where
  | withFinalizer
  | plain
deriving Repr, DecidableEq

/-- Trace record of one invocation of a delete helper. -/
structure DeleteCall where
  path : DeletePath
  names : List String
  ns : String
  resourceType : String
  noInteractive : Bool
deriving Repr, DecidableEq

/-- The collaborators of `GetUnusedfinalizers` outside this file's source:
`SetNamespaceList`, the two delete helpers, `FormatOutputFromMap`,
`json.MarshalIndent` and `unusedResourceFormatter` (the latter returning a
value and a possibly-nil error, both of which the caller inspects). -/
structure Env where
  cluster : Cluster
  filterOpts : FilterOptions
  setNamespaceList : IncludeExcludeLists → List String
  deleteResource : List String → String → String → Bool → Except String (List String)
  deleteResourceWithFinalizer : List String → String → String → Bool → Except String (List String)
  formatOutputFromMap : String → TypeMap → String
  marshalIndent : NsMap → Except String String
  unusedResourceFormatter : String → String → String → String × Option String

/-- Observable outcome of `GetUnusedfinalizers`: either the process exited
(via a scan's `os.Exit`), or the function returned `(output, err)`; `buffer`,
`response` and `deleteCalls` expose the internal text buffer, the ScanResponse
map and the trace of delete-helper invocations. -/
inductive RunOutcome where
  | exit (code : Nat)
  | ret (output : String) (err : Option String) (buffer : String)
      (response : NsMap) (deleteCalls : List DeleteCall)
deriving Repr, DecidableEq

/-- Tail of `GetUnusedfinalizers`: `json.MarshalIndent` failure is returned as
`("", err)`; a failure of `unusedResourceFormatter` is only printed, and its
string result is returned with a nil error. -/
def finishRun (env : Env) (outputFormat buf : String) (response : NsMap)
    (calls : List DeleteCall) : RunOutcome :=
  match env.marshalIndent response with
  | .error e => .ret "" (some e) buf response calls
  | .ok jsonResponse =>
    .ret (env.unusedResourceFormatter outputFormat buf jsonResponse).1 none buf response calls

/-- The delete-helper invocations one `(namespace, data)` group produces:
one call per resource type when the delete flag is set. The Go code assigns
each helper's returned residual list to the `range` loop variable
`resourceDiff`, which is never written back into the map, so only the
invocation itself is observable. -/
def deleteCallsOf (path : DeletePath) (deleteFlag noInteractive : Bool)
    (ns : String) (data : TypeMap) : List DeleteCall :=
  if deleteFlag then data.map (fun p => ⟨path, p.2, ns, p.1, noInteractive⟩) else []

/-- `for namespace, data := range resourceDiffs` of the global branch: groups
whose namespace is not in the resolved list are skipped entirely; kept groups
drive `DeleteResourceWithFinalizer`, `FormatOutputFromMap`, the buffer, and
`response[namespace] = data` with the original (not residual) data. -/
def globalBranchFold (env : Env) (opts : Opts) (namespaces : List String) :
    List (String × TypeMap) → String → NsMap → List DeleteCall →
    String × NsMap × List DeleteCall
  | [], buf, resp, calls => (buf, resp, calls)
  | (ns, data) :: rest, buf, resp, calls =>
    if namespaces.contains ns then
      globalBranchFold env opts namespaces rest
        (buf ++ env.formatOutputFromMap ns data ++ "\n")
        (nsMapSet resp ns data)
        (calls ++ deleteCallsOf .withFinalizer opts.deleteFlag opts.noInteractive ns data)
    else globalBranchFold env opts namespaces rest buf resp calls

/-- `for _, namespace := range namespaces` of the scoped branch: a scan error
skips the namespace (`continue`), a scan `os.Exit` ends the process; kept
namespaces drive `DeleteResource`, the buffer, and
`response[namespace] = resourceDiffs` with the original (not residual) data. -/
def scopedBranchFold (env : Env) (opts : Opts) :
    List String → String → NsMap → List DeleteCall →
    Except Nat (String × NsMap × List DeleteCall)
  | [], buf, resp, calls => .ok (buf, resp, calls)
  | ns :: rest, buf, resp, calls =>
    match getNamespacedResourcesWithFinalizersPendingDeletion env.cluster env.filterOpts ns with
    | .exitProcess code => .error code
    | .errored _ _ => scopedBranchFold env opts rest buf resp calls
    | .ok resourceDiffs =>
      scopedBranchFold env opts rest
        (buf ++ env.formatOutputFromMap ns resourceDiffs ++ "\n")
        (nsMapSet resp ns resourceDiffs)
        (calls ++ deleteCallsOf .plain opts.deleteFlag opts.noInteractive ns resourceDiffs)

/-- `GetUnusedfinalizers`: resolves the namespace list, dispatches on the
emptiness of the exclude and include lists between the global branch (one
all-namespaces scan whose error, if any, is printed and whose partial map is
still used) and the scoped branch (one scan per namespace), then marshals and
formats. -/
def GetUnusedfinalizers (env : Env) (includeExcludeLists : IncludeExcludeLists)
    (opts : Opts) (outputFormat : String) : RunOutcome :=
  let namespaces := env.setNamespaceList includeExcludeLists
  if includeExcludeLists.ExcludeListStr.length = 0 ∧
      includeExcludeLists.IncludeListStr.length = 0 then
    match getResourcesWithFinalizersPendingDeletion env.cluster env.filterOpts namespaces with
    | .exitProcess code => .exit code
    | .errored m _ =>
      let r := globalBranchFold env opts namespaces m "" [] []
      finishRun env outputFormat r.1 r.2.1 r.2.2
    | .ok m =>
      let r := globalBranchFold env opts namespaces m "" [] []
      finishRun env outputFormat r.1 r.2.1 r.2.2
  else
    match scopedBranchFold env opts namespaces "" [] [] with
    | .error code => .exit code
    | .ok (buf, resp, calls) => finishRun env outputFormat buf resp calls

/-! ## Concrete fixtures -/

/-- A pending-deletion object: one finalizer and a set deletion timestamp. -/
def itemCmA : Item :=
  { name := "cm-a", ns := "default", labels := [], creationTimestamp := 0,
    finalizers := ["fin.example/x"], deletionTimestamp := some 5 }

/-- A one-type discovery catalog: namespaced `configmaps` supporting `list`. -/
def catalogOne : List APIResourceList :=
  [⟨"v1", [⟨"configmaps", true, ["get", "list", "delete"]⟩]⟩]

/-- Filter options whose predicates exclude nothing. -/
def filterOptsTrivial : FilterOptions := ⟨fun _ => false, fun _ => true⟩

/-- A cluster holding exactly `itemCmA` under `configmaps` in `default`. -/
def clusterOne : Cluster :=
  { serverPreferredResources := .ok catalogOne,
    parseGroupVersion := fun _ => .ok (),
    listResource := fun gv r ns =>
      if gv == "v1" && r == "configmaps" && (ns == "" || ns == "default") then
        .ok [itemCmA]
      else .ok [] }

/-- Environment for the deletion scenario: the namespace list resolves to
`default`, and both delete helpers succeed returning an empty residual list. -/
def envOne : Env :=
  { cluster := clusterOne, filterOpts := filterOptsTrivial,
    setNamespaceList := fun _ => ["default"],
    deleteResource := fun _ _ _ _ => .ok [],
    deleteResourceWithFinalizer := fun _ _ _ _ => .ok [],
    formatOutputFromMap := fun _ _ => "",
    marshalIndent := fun _ => .ok "json",
    unusedResourceFormatter := fun _ _ _ => ("rendered", none) }

/-! ## Claims -/

/-- C1: the finalizer predicate classifies pending deletion iff the finalizer
list is non-empty and the deletion timestamp is non-nil, and returns not-pending
whenever the list is empty or the timestamp is nil; by its type it is a pure
total function of exactly those two inputs. -/
theorem C1_finalizer_predicate (fs : List String) (ts : Option Nat) :
    (CheckFinalizers fs ts = true ↔ fs ≠ [] ∧ ts ≠ none) ∧
    ((fs = [] ∨ ts = none) → CheckFinalizers fs ts = false) := by
  cases fs <;> cases ts <;> simp [CheckFinalizers]

/-- Witness for C1 at concrete inputs, discharging the implication hypothesis
at `fs = []`. -/
theorem C1_finalizer_predicate_witness :
    ((CheckFinalizers ["fin.example/x"] (some 5) = true ↔
        ["fin.example/x"] ≠ [] ∧ (some 5 : Option Nat) ≠ none) ∧
      ((["fin.example/x"] = [] ∨ (some 5 : Option Nat) = none) →
        CheckFinalizers ["fin.example/x"] (some 5) = false)) ∧
    CheckFinalizers [] (some 5) = false :=
  ⟨C1_finalizer_predicate ["fin.example/x"] (some 5),
    (C1_finalizer_predicate [] (some 5)).2 (Or.inl rfl)⟩

/-- C2, evaluation at the failing input: the delete flag is set, the mode is
global, non-interactive is true, and `DeleteResourceWithFinalizer` succeeds for
`cm-a` returning an empty residual list — yet `cm-a` is still present in the
final report (both the ScanResponse and the group passed to the formatter),
because the Go code assigns the residual list to the `range` loop variable and
never writes it back. -/
theorem C2_deleted_name_still_reported :
    envOne.deleteResourceWithFinalizer ["cm-a"] "default" "configmaps" true =
      .ok [] ∧
    GetUnusedfinalizers envOne ⟨[], []⟩ ⟨true, true⟩ "json" =
      .ret "rendered" none "\n" [("default", [("configmaps", ["cm-a"])])]
        [⟨.withFinalizer, ["cm-a"], "default", "configmaps", true⟩] ∧
    nsMapHas [("default", [("configmaps", ["cm-a"])])] "default" "configmaps" "cm-a" = true := by
  refine ⟨rfl, ?_, rfl⟩
  rfl


/-! ## Map lemmas -/

/-- Membership after a Go-style append into a `map[string][]string`. -/
theorem typeMapHas_typeMapAppend (m : TypeMap) (t n t' n' : String) :
    typeMapHas (typeMapAppend m t n) t' n' = true ↔
      typeMapHas m t' n' = true ∨ (t' = t ∧ n' = n) := by
  induction m with
  | nil =>
    by_cases h : t = t'
    · subst h; simp [typeMapAppend, typeMapHas]
    · simp [typeMapAppend, typeMapHas, h, Ne.symm h]
  | cons p rest ih =>
    obtain ⟨k, vs⟩ := p
    by_cases hkt : k = t
    · subst hkt
      by_cases hk' : k = t'
      · subst hk'; simp [typeMapAppend, typeMapHas, or_assoc]
      · simp [typeMapAppend, typeMapHas, hk', Ne.symm hk']
    · by_cases hk' : k = t'
      · subst hk'; simp [typeMapAppend, typeMapHas, hkt, Ne.symm hkt]
      · simp [typeMapAppend, typeMapHas, hkt, hk', ih]

/-- Membership after a Go-style nested append into
`map[string]map[string][]string`. -/
theorem nsMapHas_nsMapAppend (m : NsMap) (a b c ns t n : String) :
    nsMapHas (nsMapAppend m a b c) ns t n = true ↔
      nsMapHas m ns t n = true ∨ (ns = a ∧ t = b ∧ n = c) := by
  induction m with
  | nil =>
    by_cases h : a = ns
    · subst h
      by_cases hb : b = t
      · subst hb; simp [nsMapAppend, nsMapHas, typeMapHas, typeMapAppend]
      · simp [nsMapAppend, nsMapHas, typeMapHas, typeMapAppend, hb, Ne.symm hb]
    · simp [nsMapAppend, nsMapHas, h, Ne.symm h]
  | cons p rest ih =>
    obtain ⟨k, tm⟩ := p
    by_cases hka : k = a
    · subst hka
      by_cases hk' : k = ns
      · subst hk'; simp [nsMapAppend, nsMapHas, typeMapHas_typeMapAppend, and_assoc]
      · simp [nsMapAppend, nsMapHas, hk', Ne.symm hk']
    · by_cases hk' : k = ns
      · subst hk'; simp [nsMapAppend, nsMapHas, hka, Ne.symm hka]
      · simp [nsMapAppend, nsMapHas, hka, hk', ih]

/-- Lookup after a Go-style map assignment `m[k] = v`. -/
theorem nsMapHas_nsMapSet (m : NsMap) (k : String) (v : TypeMap) (ns t n : String) :
    nsMapHas (nsMapSet m k v) ns t n =
      if ns = k then typeMapHas v t n else nsMapHas m ns t n := by
  induction m with
  | nil =>
    by_cases h : k = ns
    · subst h; simp [nsMapSet, nsMapHas]
    · simp [nsMapSet, nsMapHas, h, Ne.symm h]
  | cons p rest ih =>
    obtain ⟨k', tm⟩ := p
    by_cases hk : k' = k
    · subst hk
      by_cases h' : k' = ns
      · subst h'; simp [nsMapSet, nsMapHas]
      · simp [nsMapSet, nsMapHas, h', Ne.symm h']
    · by_cases h' : k' = ns
      · subst h'; simp [nsMapSet, nsMapHas, hk, Ne.symm hk]
      · simp [nsMapSet, nsMapHas, hk, h', ih]

/-- An entry of a map after `m[k] = v` is an old entry or the new binding. -/
theorem mem_nsMapSet (m : NsMap) (k : String) (v : TypeMap) (p : String × TypeMap) :
    p ∈ nsMapSet m k v → p ∈ m ∨ p = (k, v) := by
  induction m with
  | nil => intro h; simpa [nsMapSet] using h
  | cons q rest ih =>
    obtain ⟨k', tm⟩ := q
    intro h
    by_cases hk : k' = k
    · subst hk
      simp [nsMapSet] at h
      rcases h with h | h
      · exact Or.inr (by simp [h])
      · exact Or.inl (List.mem_cons_of_mem _ h)
    · simp only [nsMapSet, if_neg hk, List.mem_cons] at h
      rcases h with h | h
      · exact Or.inl (by simp [h])
      · rcases ih h with h' | h'
        · exact Or.inl (List.mem_cons_of_mem _ h')
        · exact Or.inr h'

/-- Keys present after `m[k] = v`: the old keys plus `k`. -/
theorem keys_nsMapSet (m : NsMap) (k : String) (v : TypeMap) (x : String) :
    x ∈ (nsMapSet m k v).map Prod.fst ↔ x ∈ m.map Prod.fst ∨ x = k := by
  induction m with
  | nil => simp [nsMapSet]
  | cons q rest ih =>
    obtain ⟨k', tm⟩ := q
    by_cases hk : k' = k
    · subst hk
      simp [nsMapSet]
      tauto
    · simp [nsMapSet, hk, ih]
      tauto

/-! ## Filter pipeline -/

/-- An object survives the three-stage filter pipeline and is classified
pending: no kor/used=true label, not excluded by labels, inside the age
window, and `CheckFinalizers` holds. -/
def pendingItem (filterOpts : FilterOptions) (item : Item) : Prop :=
  labelGet item.labels "kor/used" ≠ "true" ∧
  filterOpts.hasExcludedLabel item.labels = false ∧
  filterOpts.hasIncludedAge item.creationTimestamp = true ∧
  CheckFinalizers item.finalizers item.deletionTimestamp = true

instance (filterOpts : FilterOptions) (item : Item) : Decidable (pendingItem filterOpts item) := by
  unfold pendingItem; infer_instance

/-- The nested short-circuit conditionals of the global per-item loop body
collapse to a single guarded append. -/
theorem processItemGlobal_eq (filterOpts : FilterOptions) (r : String) (acc : NsMap) (item : Item) :
    processItemGlobal filterOpts r acc item =
      if pendingItem filterOpts item then nsMapAppend acc item.ns r item.name else acc := by
  by_cases h1 : labelGet item.labels "kor/used" = "true"
  · simp [processItemGlobal, pendingItem, h1]
  · by_cases h2 : filterOpts.hasExcludedLabel item.labels = true
    · simp [processItemGlobal, pendingItem, h1, h2]
    · by_cases h3 : filterOpts.hasIncludedAge item.creationTimestamp = true
      · by_cases h4 : CheckFinalizers item.finalizers item.deletionTimestamp = true
        · simp [processItemGlobal, pendingItem, h1, h2, h3, h4]
        · simp [processItemGlobal, pendingItem, h1, h2, h3, h4]
      · simp [processItemGlobal, pendingItem, h1, h2, h3]

/-- The nested short-circuit conditionals of the namespaced per-item loop body
collapse to a single guarded append. -/
theorem processItemNamespaced_eq (filterOpts : FilterOptions) (r : String) (acc : TypeMap) (item : Item) :
    processItemNamespaced filterOpts r acc item =
      if pendingItem filterOpts item then typeMapAppend acc r item.name else acc := by
  by_cases h1 : labelGet item.labels "kor/used" = "true"
  · simp [processItemNamespaced, pendingItem, h1]
  · by_cases h2 : filterOpts.hasExcludedLabel item.labels = true
    · simp [processItemNamespaced, pendingItem, h1, h2]
    · by_cases h3 : filterOpts.hasIncludedAge item.creationTimestamp = true
      · by_cases h4 : CheckFinalizers item.finalizers item.deletionTimestamp = true
        · simp [processItemNamespaced, pendingItem, h1, h2, h3, h4]
        · simp [processItemNamespaced, pendingItem, h1, h2, h3, h4]
      · simp [processItemNamespaced, pendingItem, h1, h2, h3]

/-- The global item loop splits over list append. -/
theorem processItemsGlobal_append (filterOpts : FilterOptions) (r : String)
    (xs ys : List Item) (acc : NsMap) :
    processItemsGlobal filterOpts r (xs ++ ys) acc =
      processItemsGlobal filterOpts r ys (processItemsGlobal filterOpts r xs acc) := by
  induction xs generalizing acc with
  | nil => simp [processItemsGlobal]
  | cons x xs ih => simp [processItemsGlobal, ih]

/-- The namespaced item loop splits over list append. -/
theorem processItemsNamespaced_append (filterOpts : FilterOptions) (r : String)
    (xs ys : List Item) (acc : TypeMap) :
    processItemsNamespaced filterOpts r (xs ++ ys) acc =
      processItemsNamespaced filterOpts r ys (processItemsNamespaced filterOpts r xs acc) := by
  induction xs generalizing acc with
  | nil => simp [processItemsNamespaced]
  | cons x xs ih => simp [processItemsNamespaced, ih]

/-- C5: the per-object filter pipeline evaluates, in order and with
short-circuit, (1) the kor/used label, (2) the exclusion-label predicate,
(3) the age-inclusion predicate, then the finalizer classification. An object
labeled kor/used=true is dropped for every choice of the other predicates and
regardless of its finalizer and deletion-timestamp state (items 1), and such
an object can be removed from any listing without changing either scan's
accumulator; an object failing the exclusion-label stage (item 2) or the age
stage (item 3) is dropped; an object passing all stages with `CheckFinalizers`
true is appended (item 4). -/
theorem C5_filter_pipeline_order (filterOpts : FilterOptions) (r : String)
    (acc : NsMap) (accN : TypeMap) (item1 item2 item3 item4 : Item)
    (pre post : List Item)
    (h1 : labelGet item1.labels "kor/used" = "true")
    (h2a : labelGet item2.labels "kor/used" ≠ "true")
    (h2b : filterOpts.hasExcludedLabel item2.labels = true)
    (h3a : labelGet item3.labels "kor/used" ≠ "true")
    (h3b : filterOpts.hasExcludedLabel item3.labels = false)
    (h3c : filterOpts.hasIncludedAge item3.creationTimestamp = false)
    (h4a : labelGet item4.labels "kor/used" ≠ "true")
    (h4b : filterOpts.hasExcludedLabel item4.labels = false)
    (h4c : filterOpts.hasIncludedAge item4.creationTimestamp = true)
    (h4d : CheckFinalizers item4.finalizers item4.deletionTimestamp = true) :
    processItemGlobal filterOpts r acc item1 = acc ∧
    processItemNamespaced filterOpts r accN item1 = accN ∧
    processItemsGlobal filterOpts r (pre ++ item1 :: post) acc =
      processItemsGlobal filterOpts r (pre ++ post) acc ∧
    processItemsNamespaced filterOpts r (pre ++ item1 :: post) accN =
      processItemsNamespaced filterOpts r (pre ++ post) accN ∧
    processItemGlobal filterOpts r acc item2 = acc ∧
    processItemGlobal filterOpts r acc item3 = acc ∧
    processItemGlobal filterOpts r acc item4 = nsMapAppend acc item4.ns r item4.name ∧
    processItemNamespaced filterOpts r accN item2 = accN ∧
    processItemNamespaced filterOpts r accN item3 = accN ∧
    processItemNamespaced filterOpts r accN item4 = typeMapAppend accN r item4.name := by
  refine ⟨?_, ?_, ?_, ?_, ?_, ?_, ?_, ?_, ?_, ?_⟩
  · simp [processItemGlobal, h1]
  · simp [processItemNamespaced, h1]
  · rw [processItemsGlobal_append, processItemsGlobal_append]
    show processItemsGlobal filterOpts r (item1 :: post) _ = _
    rw [processItemsGlobal]
    have : processItemGlobal filterOpts r (processItemsGlobal filterOpts r pre acc) item1 =
        processItemsGlobal filterOpts r pre acc := by
      simp [processItemGlobal, h1]
    rw [this]
  · rw [processItemsNamespaced_append, processItemsNamespaced_append]
    show processItemsNamespaced filterOpts r (item1 :: post) _ = _
    rw [processItemsNamespaced]
    have : processItemNamespaced filterOpts r (processItemsNamespaced filterOpts r pre accN) item1 =
        processItemsNamespaced filterOpts r pre accN := by
      simp [processItemNamespaced, h1]
    rw [this]
  · simp [processItemGlobal, h2a, h2b]
  · simp [processItemGlobal, h3a, h3b, h3c]
  · simp [processItemGlobal, h4a, h4b, h4c, h4d]
  · simp [processItemNamespaced, h2a, h2b]
  · simp [processItemNamespaced, h3a, h3b, h3c]
  · simp [processItemNamespaced, h4a, h4b, h4c, h4d]

/-- kor/used-labeled object, otherwise pending. -/
def itemUsedW : Item :=
  { name := "u", ns := "default", labels := [("kor/used", "true")],
    creationTimestamp := 0, finalizers := ["f"], deletionTimestamp := some 1 }

/-- Object carrying an excluded label, otherwise pending. -/
def itemExcludedW : Item :=
  { name := "e", ns := "default", labels := [("ex", "1")],
    creationTimestamp := 0, finalizers := ["f"], deletionTimestamp := some 1 }

/-- Object outside the age window, otherwise pending. -/
def itemOldW : Item :=
  { name := "o", ns := "default", labels := [],
    creationTimestamp := 20, finalizers := ["f"], deletionTimestamp := some 1 }

/-- Object passing every filter, with finalizer and deletion timestamp. -/
def itemPendW : Item :=
  { name := "p", ns := "default", labels := [],
    creationTimestamp := 0, finalizers := ["f"], deletionTimestamp := some 1 }

/-- Filter options excluding the label `ex=1` and ages of at least 10 ticks. -/
def filterOptsW : FilterOptions :=
  ⟨fun l => l.contains ("ex", "1"), fun ts => decide (ts < 10)⟩

/-- Witness for C5 at concrete items and filter options. -/
theorem C5_filter_pipeline_order_witness :
    labelGet itemUsedW.labels "kor/used" = "true" ∧
    labelGet itemExcludedW.labels "kor/used" ≠ "true" ∧
    filterOptsW.hasExcludedLabel itemExcludedW.labels = true ∧
    labelGet itemOldW.labels "kor/used" ≠ "true" ∧
    filterOptsW.hasExcludedLabel itemOldW.labels = false ∧
    filterOptsW.hasIncludedAge itemOldW.creationTimestamp = false ∧
    labelGet itemPendW.labels "kor/used" ≠ "true" ∧
    filterOptsW.hasExcludedLabel itemPendW.labels = false ∧
    filterOptsW.hasIncludedAge itemPendW.creationTimestamp = true ∧
    CheckFinalizers itemPendW.finalizers itemPendW.deletionTimestamp = true ∧
    (processItemGlobal filterOptsW "configmaps" [] itemUsedW = [] ∧
     processItemNamespaced filterOptsW "configmaps" [] itemUsedW = [] ∧
     processItemsGlobal filterOptsW "configmaps" ([itemPendW] ++ itemUsedW :: [itemExcludedW]) [] =
       processItemsGlobal filterOptsW "configmaps" ([itemPendW] ++ [itemExcludedW]) [] ∧
     processItemsNamespaced filterOptsW "configmaps" ([itemPendW] ++ itemUsedW :: [itemExcludedW]) [] =
       processItemsNamespaced filterOptsW "configmaps" ([itemPendW] ++ [itemExcludedW]) [] ∧
     processItemGlobal filterOptsW "configmaps" [] itemExcludedW = [] ∧
     processItemGlobal filterOptsW "configmaps" [] itemOldW = [] ∧
     processItemGlobal filterOptsW "configmaps" [] itemPendW =
       nsMapAppend [] itemPendW.ns "configmaps" itemPendW.name ∧
     processItemNamespaced filterOptsW "configmaps" [] itemExcludedW = [] ∧
     processItemNamespaced filterOptsW "configmaps" [] itemOldW = [] ∧
     processItemNamespaced filterOptsW "configmaps" [] itemPendW =
       typeMapAppend [] "configmaps" itemPendW.name) :=
  ⟨by decide, by decide, by decide, by decide, by decide, by decide, by decide,
   by decide, by decide, by decide,
   C5_filter_pipeline_order filterOptsW "configmaps" [] [] itemUsedW itemExcludedW
     itemOldW itemPendW [itemPendW] [itemExcludedW] (by decide) (by decide) (by decide)
     (by decide) (by decide) (by decide) (by decide) (by decide) (by decide) (by decide)⟩

/-! ## Catalog loop lemmas -/

/-- One-step unfolding of the global resource loop. -/
theorem processResourcesGlobal_cons
    (listRes : String → String → String → Except String (List Item))
    (filterOpts : FilterOptions) (gvStr : String) (r : APIResource)
    (rest : List APIResource) (acc : NsMap) :
    processResourcesGlobal listRes filterOpts gvStr (r :: rest) acc =
      if r.namespaced && r.verbs.contains "list" then
        match listRes gvStr r.name "" with
        | .error _ => processResourcesGlobal listRes filterOpts gvStr rest acc
        | .ok items =>
          processResourcesGlobal listRes filterOpts gvStr rest
            (processItemsGlobal filterOpts r.name items acc)
      else processResourcesGlobal listRes filterOpts gvStr rest acc := rfl

/-- One-step unfolding of the namespaced resource loop. -/
theorem processResourcesNamespaced_cons
    (listRes : String → String → String → Except String (List Item))
    (filterOpts : FilterOptions) (gvStr ns : String) (r : APIResource)
    (rest : List APIResource) (acc : TypeMap) :
    processResourcesNamespaced listRes filterOpts gvStr ns (r :: rest) acc =
      if r.namespaced && r.verbs.contains "list" then
        match listRes gvStr r.name ns with
        | .error _ => processResourcesNamespaced listRes filterOpts gvStr ns rest acc
        | .ok items =>
          processResourcesNamespaced listRes filterOpts gvStr ns rest
            (processItemsNamespaced filterOpts r.name items acc)
      else processResourcesNamespaced listRes filterOpts gvStr ns rest acc := rfl

/-- The global resource loop splits over list append. -/
theorem processResourcesGlobal_append
    (listRes : String → String → String → Except String (List Item))
    (filterOpts : FilterOptions) (gvStr : String)
    (xs ys : List APIResource) (acc : NsMap) :
    processResourcesGlobal listRes filterOpts gvStr (xs ++ ys) acc =
      processResourcesGlobal listRes filterOpts gvStr ys
        (processResourcesGlobal listRes filterOpts gvStr xs acc) := by
  induction xs generalizing acc with
  | nil => simp [processResourcesGlobal]
  | cons r xs ih =>
    rw [List.cons_append, processResourcesGlobal_cons, processResourcesGlobal_cons]
    by_cases hg : (r.namespaced && r.verbs.contains "list") = true
    · cases hl : listRes gvStr r.name "" with
      | error e => rw [if_pos hg, if_pos hg]; exact ih acc
      | ok items => rw [if_pos hg, if_pos hg]; exact ih _
    · rw [if_neg hg, if_neg hg]; exact ih acc

/-- The namespaced resource loop splits over list append. -/
theorem processResourcesNamespaced_append
    (listRes : String → String → String → Except String (List Item))
    (filterOpts : FilterOptions) (gvStr ns : String)
    (xs ys : List APIResource) (acc : TypeMap) :
    processResourcesNamespaced listRes filterOpts gvStr ns (xs ++ ys) acc =
      processResourcesNamespaced listRes filterOpts gvStr ns ys
        (processResourcesNamespaced listRes filterOpts gvStr ns xs acc) := by
  induction xs generalizing acc with
  | nil => simp [processResourcesNamespaced]
  | cons r xs ih =>
    rw [List.cons_append, processResourcesNamespaced_cons, processResourcesNamespaced_cons]
    by_cases hg : (r.namespaced && r.verbs.contains "list") = true
    · cases hl : listRes gvStr r.name ns with
      | error e => rw [if_pos hg, if_pos hg]; exact ih acc
      | ok items => rw [if_pos hg, if_pos hg]; exact ih _
    · rw [if_neg hg, if_neg hg]; exact ih acc

/-- A resource type whose (all-namespaces) list call fails is skipped: the
accumulator is unchanged. -/
theorem processResourcesGlobal_skip
    (listRes : String → String → String → Except String (List Item))
    (filterOpts : FilterOptions) (gvStr : String) (r : APIResource)
    (rest : List APIResource) (acc : NsMap) (e : String)
    (hfail : listRes gvStr r.name "" = .error e) :
    processResourcesGlobal listRes filterOpts gvStr (r :: rest) acc =
      processResourcesGlobal listRes filterOpts gvStr rest acc := by
  rw [processResourcesGlobal_cons]
  by_cases hg : (r.namespaced && r.verbs.contains "list") = true
  · rw [if_pos hg, hfail]
  · rw [if_neg hg]

/-- A resource type whose namespaced list call fails is skipped. -/
theorem processResourcesNamespaced_skip
    (listRes : String → String → String → Except String (List Item))
    (filterOpts : FilterOptions) (gvStr ns : String) (r : APIResource)
    (rest : List APIResource) (acc : TypeMap) (e : String)
    (hfail : listRes gvStr r.name ns = .error e) :
    processResourcesNamespaced listRes filterOpts gvStr ns (r :: rest) acc =
      processResourcesNamespaced listRes filterOpts gvStr ns rest acc := by
  rw [processResourcesNamespaced_cons]
  by_cases hg : (r.namespaced && r.verbs.contains "list") = true
  · rw [if_pos hg, hfail]
  · rw [if_neg hg]

/-- The global catalog loop splits over list append; a parse error in the
first part short-circuits. -/
theorem processCatalogGlobal_append (parseGV : String → Except String Unit)
    (listRes : String → String → String → Except String (List Item))
    (filterOpts : FilterOptions) (xs ys : List APIResourceList) (acc : NsMap) :
    processCatalogGlobal parseGV listRes filterOpts (xs ++ ys) acc =
      match processCatalogGlobal parseGV listRes filterOpts xs acc with
      | .ok m => processCatalogGlobal parseGV listRes filterOpts ys m
      | .errored m e => .errored m e
      | .exitProcess k => .exitProcess k := by
  induction xs generalizing acc with
  | nil => simp [processCatalogGlobal]
  | cons arl xs ih =>
    cases hp : parseGV arl.groupVersion with
    | error e => simp [processCatalogGlobal, hp]
    | ok u => simp [processCatalogGlobal, hp, ih]

/-- The namespaced catalog loop splits over list append. -/
theorem processCatalogNamespaced_append (parseGV : String → Except String Unit)
    (listRes : String → String → String → Except String (List Item))
    (filterOpts : FilterOptions) (ns : String) (xs ys : List APIResourceList) (acc : TypeMap) :
    processCatalogNamespaced parseGV listRes filterOpts ns (xs ++ ys) acc =
      match processCatalogNamespaced parseGV listRes filterOpts ns xs acc with
      | .ok m => processCatalogNamespaced parseGV listRes filterOpts ns ys m
      | .errored m e => .errored m e
      | .exitProcess k => .exitProcess k := by
  induction xs generalizing acc with
  | nil => simp [processCatalogNamespaced]
  | cons arl xs ih =>
    cases hp : parseGV arl.groupVersion with
    | error e => simp [processCatalogNamespaced, hp]
    | ok u => simp [processCatalogNamespaced, hp, ih]

/-- Removing a resource type whose all-namespaces list call fails from the
catalog does not change the global catalog loop's outcome. -/
theorem processCatalogGlobal_skipType (parseGV : String → Except String Unit)
    (listRes : String → String → String → Except String (List Item))
    (filterOpts : FilterOptions) (cat1 cat2 : List APIResourceList)
    (rs1 rs2 : List APIResource) (r : APIResource) (gvStr e : String) (acc : NsMap)
    (hfail : listRes gvStr r.name "" = .error e) :
    processCatalogGlobal parseGV listRes filterOpts
        (cat1 ++ ⟨gvStr, rs1 ++ r :: rs2⟩ :: cat2) acc =
      processCatalogGlobal parseGV listRes filterOpts
        (cat1 ++ ⟨gvStr, rs1 ++ rs2⟩ :: cat2) acc := by
  rw [processCatalogGlobal_append, processCatalogGlobal_append]
  cases processCatalogGlobal parseGV listRes filterOpts cat1 acc with
  | exitProcess k => rfl
  | errored m e' => rfl
  | ok m =>
    show processCatalogGlobal parseGV listRes filterOpts (⟨gvStr, rs1 ++ r :: rs2⟩ :: cat2) m =
      processCatalogGlobal parseGV listRes filterOpts (⟨gvStr, rs1 ++ rs2⟩ :: cat2) m
    cases hp : parseGV gvStr with
    | error e' => simp [processCatalogGlobal, hp]
    | ok u =>
      simp only [processCatalogGlobal, hp]
      rw [processResourcesGlobal_append, processResourcesGlobal_append,
        processResourcesGlobal_skip listRes filterOpts gvStr r rs2
          (processResourcesGlobal listRes filterOpts gvStr rs1 m) e hfail]

/-- Removing a resource type whose namespaced list call fails from the
catalog does not change the namespaced catalog loop's outcome. -/
theorem processCatalogNamespaced_skipType (parseGV : String → Except String Unit)
    (listRes : String → String → String → Except String (List Item))
    (filterOpts : FilterOptions) (ns : String) (cat1 cat2 : List APIResourceList)
    (rs1 rs2 : List APIResource) (r : APIResource) (gvStr e : String) (acc : TypeMap)
    (hfail : listRes gvStr r.name ns = .error e) :
    processCatalogNamespaced parseGV listRes filterOpts ns
        (cat1 ++ ⟨gvStr, rs1 ++ r :: rs2⟩ :: cat2) acc =
      processCatalogNamespaced parseGV listRes filterOpts ns
        (cat1 ++ ⟨gvStr, rs1 ++ rs2⟩ :: cat2) acc := by
  rw [processCatalogNamespaced_append, processCatalogNamespaced_append]
  cases processCatalogNamespaced parseGV listRes filterOpts ns cat1 acc with
  | exitProcess k => rfl
  | errored m e' => rfl
  | ok m =>
    show processCatalogNamespaced parseGV listRes filterOpts ns (⟨gvStr, rs1 ++ r :: rs2⟩ :: cat2) m =
      processCatalogNamespaced parseGV listRes filterOpts ns (⟨gvStr, rs1 ++ rs2⟩ :: cat2) m
    cases hp : parseGV gvStr with
    | error e' => simp [processCatalogNamespaced, hp]
    | ok u =>
      simp only [processCatalogNamespaced, hp]
      rw [processResourcesNamespaced_append, processResourcesNamespaced_append,
        processResourcesNamespaced_skip listRes filterOpts gvStr ns r rs2
          (processResourcesNamespaced listRes filterOpts gvStr ns rs1 m) e hfail]

/-- C7: a list failure for a single resource type is non-fatal in both scan
modes: the scan's result is exactly the result of scanning a catalog in which
that type does not occur, so the type is skipped, the scan continues with the
remaining types, and results accumulated for other types are unaffected. -/
theorem C7_list_failure_nonfatal (c : Cluster) (filterOpts : FilterOptions)
    (namespaces : List String) (ns0 gvStr e1 e2 : String)
    (cat1 cat2 : List APIResourceList) (rs1 rs2 : List APIResource) (r : APIResource)
    (hc : c.serverPreferredResources = .ok (cat1 ++ ⟨gvStr, rs1 ++ r :: rs2⟩ :: cat2))
    (hfail : c.listResource gvStr r.name "" = .error e1)
    (hfailNs : c.listResource gvStr r.name ns0 = .error e2) :
    getResourcesWithFinalizersPendingDeletion c filterOpts namespaces =
      getResourcesWithFinalizersPendingDeletion
        { c with serverPreferredResources := .ok (cat1 ++ ⟨gvStr, rs1 ++ rs2⟩ :: cat2) }
        filterOpts namespaces ∧
    getNamespacedResourcesWithFinalizersPendingDeletion c filterOpts ns0 =
      getNamespacedResourcesWithFinalizersPendingDeletion
        { c with serverPreferredResources := .ok (cat1 ++ ⟨gvStr, rs1 ++ rs2⟩ :: cat2) }
        filterOpts ns0 := by
  constructor
  · unfold getResourcesWithFinalizersPendingDeletion
    rw [hc]
    exact processCatalogGlobal_skipType c.parseGroupVersion c.listResource filterOpts
      cat1 cat2 rs1 rs2 r gvStr e1 [] hfail
  · unfold getNamespacedResourcesWithFinalizersPendingDeletion
    rw [hc]
    exact processCatalogNamespaced_skipType c.parseGroupVersion c.listResource filterOpts
      ns0 cat1 cat2 rs1 rs2 r gvStr e2 [] hfailNs

/-- A listable namespaced resource descriptor. -/
def cfgRes : APIResource := ⟨"configmaps", true, ["list"]⟩

/-- A resource descriptor whose list calls will fail. -/
def brokenRes : APIResource := ⟨"broken", true, ["list"]⟩

/-- Cluster with one healthy type and one type whose list calls error. -/
def clusterC7 : Cluster :=
  { serverPreferredResources := .ok [⟨"v1", [cfgRes, brokenRes]⟩],
    parseGroupVersion := fun _ => .ok (),
    listResource := fun gv r ns =>
      if r == "broken" then .error "forbidden"
      else if gv == "v1" && r == "configmaps" && (ns == "" || ns == "default") then
        .ok [itemCmA]
      else .ok [] }

/-- Witness for C7 at a concrete cluster with one broken type. -/
theorem C7_list_failure_nonfatal_witness :
    clusterC7.listResource "v1" brokenRes.name "" = .error "forbidden" ∧
    clusterC7.listResource "v1" brokenRes.name "default" = .error "forbidden" ∧
    (getResourcesWithFinalizersPendingDeletion clusterC7 filterOptsTrivial ["default"] =
      getResourcesWithFinalizersPendingDeletion
        { clusterC7 with serverPreferredResources := .ok ([] ++ ⟨"v1", [cfgRes] ++ []⟩ :: []) }
        filterOptsTrivial ["default"] ∧
     getNamespacedResourcesWithFinalizersPendingDeletion clusterC7 filterOptsTrivial "default" =
      getNamespacedResourcesWithFinalizersPendingDeletion
        { clusterC7 with serverPreferredResources := .ok ([] ++ ⟨"v1", [cfgRes] ++ []⟩ :: []) }
        filterOptsTrivial "default") :=
  ⟨rfl, rfl,
   C7_list_failure_nonfatal clusterC7 filterOptsTrivial ["default"] "default" "v1"
     "forbidden" "forbidden" [] [] [cfgRes] [] brokenRes rfl rfl rfl⟩

/-- A catalog member whose group/version fails to parse makes the global
catalog loop return the error (with the partial map), never exit. -/
theorem processCatalogGlobal_errored_of_parse (parseGV : String → Except String Unit)
    (listRes : String → String → String → Except String (List Item))
    (filterOpts : FilterOptions) (cats : List APIResourceList) (arl : APIResourceList)
    (hmem : arl ∈ cats) (hp : ∃ e, parseGV arl.groupVersion = .error e) :
    ∀ acc, ∃ m err, processCatalogGlobal parseGV listRes filterOpts cats acc = .errored m err := by
  induction cats with
  | nil => cases hmem
  | cons b rest ih =>
    intro acc
    cases hpb : parseGV b.groupVersion with
    | error e => exact ⟨acc, e, by simp [processCatalogGlobal, hpb]⟩
    | ok u =>
      rcases List.mem_cons.mp hmem with h | h
      · subst h
        obtain ⟨e, he⟩ := hp
        rw [he] at hpb
        cases hpb
      · obtain ⟨m, err, hm⟩ :=
          ih h (processResourcesGlobal listRes filterOpts b.groupVersion b.apiResources acc)
        exact ⟨m, err, by simp [processCatalogGlobal, hpb, hm]⟩

/-- A catalog member whose group/version fails to parse makes the namespaced
catalog loop return the error (with the partial map), never exit. -/
theorem processCatalogNamespaced_errored_of_parse (parseGV : String → Except String Unit)
    (listRes : String → String → String → Except String (List Item))
    (filterOpts : FilterOptions) (ns : String) (cats : List APIResourceList)
    (arl : APIResourceList)
    (hmem : arl ∈ cats) (hp : ∃ e, parseGV arl.groupVersion = .error e) :
    ∀ acc, ∃ m err,
      processCatalogNamespaced parseGV listRes filterOpts ns cats acc = .errored m err := by
  induction cats with
  | nil => cases hmem
  | cons b rest ih =>
    intro acc
    cases hpb : parseGV b.groupVersion with
    | error e => exact ⟨acc, e, by simp [processCatalogNamespaced, hpb]⟩
    | ok u =>
      rcases List.mem_cons.mp hmem with h | h
      · subst h
        obtain ⟨e, he⟩ := hp
        rw [he] at hpb
        cases hpb
      · obtain ⟨m, err, hm⟩ :=
          ih h (processResourcesNamespaced listRes filterOpts b.groupVersion ns b.apiResources acc)
        exact ⟨m, err, by simp [processCatalogNamespaced, hpb, hm]⟩

/-- C8: a discovery-catalog fetch failure makes both scan functions terminate
the process with exit code 1 (no partial result is produced); an unparseable
group/version string instead makes both scan functions return an error to
their caller rather than exit. -/
theorem C8_discovery_fatal_parse_error_propagated (c : Cluster)
    (filterOpts : FilterOptions) (namespaces : List String) (ns0 e : String)
    (catalog : List APIResourceList) (arl : APIResourceList) :
    (c.serverPreferredResources = .error e →
      getResourcesWithFinalizersPendingDeletion c filterOpts namespaces = .exitProcess 1 ∧
      getNamespacedResourcesWithFinalizersPendingDeletion c filterOpts ns0 = .exitProcess 1) ∧
    (c.serverPreferredResources = .ok catalog → arl ∈ catalog →
      (∃ e2, c.parseGroupVersion arl.groupVersion = .error e2) →
      (∃ m err, getResourcesWithFinalizersPendingDeletion c filterOpts namespaces =
        .errored m err) ∧
      (∃ m2 err2, getNamespacedResourcesWithFinalizersPendingDeletion c filterOpts ns0 =
        .errored m2 err2)) := by
  constructor
  · intro h
    constructor
    · unfold getResourcesWithFinalizersPendingDeletion
      rw [h]
    · unfold getNamespacedResourcesWithFinalizersPendingDeletion
      rw [h]
  · intro hok hmem hp
    constructor
    · unfold getResourcesWithFinalizersPendingDeletion
      rw [hok]
      exact processCatalogGlobal_errored_of_parse c.parseGroupVersion c.listResource
        filterOpts catalog arl hmem hp []
    · unfold getNamespacedResourcesWithFinalizersPendingDeletion
      rw [hok]
      exact processCatalogNamespaced_errored_of_parse c.parseGroupVersion c.listResource
        filterOpts ns0 catalog arl hmem hp []

/-- A cluster whose discovery-catalog fetch fails. -/
def clusterFatal : Cluster :=
  { serverPreferredResources := .error "connection refused",
    parseGroupVersion := fun _ => .ok (),
    listResource := fun _ _ _ => .ok [] }

/-- A cluster whose catalog carries an unparseable group/version string. -/
def clusterBadGV : Cluster :=
  { serverPreferredResources := .ok [⟨"bad//gv", [cfgRes]⟩],
    parseGroupVersion := fun s =>
      if s == "bad//gv" then .error "unexpected GroupVersion string" else .ok (),
    listResource := fun _ _ _ => .ok [] }

/-- Witness for C8: a failed discovery fetch exits with code 1, and an
unparseable group/version makes the scans return errors. -/
theorem C8_discovery_fatal_parse_error_propagated_witness :
    (getResourcesWithFinalizersPendingDeletion clusterFatal filterOptsTrivial ["default"] =
        .exitProcess 1 ∧
      getNamespacedResourcesWithFinalizersPendingDeletion clusterFatal filterOptsTrivial
        "default" = .exitProcess 1) ∧
    ((∃ m err, getResourcesWithFinalizersPendingDeletion clusterBadGV filterOptsTrivial
        ["default"] = .errored m err) ∧
      (∃ m2 err2, getNamespacedResourcesWithFinalizersPendingDeletion clusterBadGV
        filterOptsTrivial "default" = .errored m2 err2)) :=
  ⟨(C8_discovery_fatal_parse_error_propagated clusterFatal filterOptsTrivial ["default"]
      "default" "connection refused" [] ⟨"v1", []⟩).1 rfl,
   (C8_discovery_fatal_parse_error_propagated clusterBadGV filterOptsTrivial ["default"]
      "default" "connection refused" [⟨"bad//gv", [cfgRes]⟩] ⟨"bad//gv", [cfgRes]⟩).2
     rfl (List.Mem.head _) ⟨"unexpected GroupVersion string", rfl⟩⟩

/-- Whether an `Except` holds an error. -/
def exceptIsError : Except ε α → Bool
  | .error _ => true
  | .ok _ => false

/-- Every run of `GetUnusedfinalizers` either exits the process or finishes
through the marshal-and-format tail. -/
theorem getUnusedfinalizers_shape (env : Env) (lists : IncludeExcludeLists)
    (opts : Opts) (fmt : String) :
    (∃ code, GetUnusedfinalizers env lists opts fmt = .exit code) ∨
    (∃ b r cl, GetUnusedfinalizers env lists opts fmt = finishRun env fmt b r cl) := by
  by_cases hcond : lists.ExcludeListStr.length = 0 ∧ lists.IncludeListStr.length = 0
  · cases hscan : getResourcesWithFinalizersPendingDeletion env.cluster env.filterOpts
        (env.setNamespaceList lists) with
    | exitProcess code =>
      exact Or.inl ⟨code, by simp [GetUnusedfinalizers, hcond, hscan]⟩
    | errored m e =>
      exact Or.inr ⟨(globalBranchFold env opts (env.setNamespaceList lists) m "" [] []).1,
        (globalBranchFold env opts (env.setNamespaceList lists) m "" [] []).2.1,
        (globalBranchFold env opts (env.setNamespaceList lists) m "" [] []).2.2,
        by simp [GetUnusedfinalizers, hcond, hscan]⟩
    | ok m =>
      exact Or.inr ⟨(globalBranchFold env opts (env.setNamespaceList lists) m "" [] []).1,
        (globalBranchFold env opts (env.setNamespaceList lists) m "" [] []).2.1,
        (globalBranchFold env opts (env.setNamespaceList lists) m "" [] []).2.2,
        by simp [GetUnusedfinalizers, hcond, hscan]⟩
  · cases hfold : scopedBranchFold env opts (env.setNamespaceList lists) "" [] [] with
    | error code =>
      refine Or.inl ⟨code, ?_⟩
      simp only [GetUnusedfinalizers]
      rw [if_neg hcond, hfold]
    | ok t =>
      refine Or.inr ⟨t.1, t.2.1, t.2.2, ?_⟩
      simp only [GetUnusedfinalizers]
      rw [if_neg hcond, hfold]

/-- C9: when `GetUnusedfinalizers` returns (rather than exits), its error
component is non-nil exactly when JSON marshaling of the response failed; when
marshaling succeeds the error is nil and the returned string is whatever the
output formatter produced from the buffer and the JSON payload, even if the
formatter itself reported an error. -/
theorem C9_error_iff_marshal_failure (env : Env) (lists : IncludeExcludeLists)
    (opts : Opts) (fmt out : String) (err : Option String) (buf : String)
    (resp : NsMap) (calls : List DeleteCall) (j : String)
    (h : GetUnusedfinalizers env lists opts fmt = .ret out err buf resp calls) :
    (err ≠ none ↔ exceptIsError (env.marshalIndent resp) = true) ∧
    (env.marshalIndent resp = .ok j →
      err = none ∧ out = (env.unusedResourceFormatter fmt buf j).1) := by
  rcases getUnusedfinalizers_shape env lists opts fmt with ⟨code, hc⟩ | ⟨b, r, cl, hf⟩
  · rw [hc] at h
    cases h
  · rw [hf] at h
    unfold finishRun at h
    cases hm : env.marshalIndent r with
    | error e =>
      rw [hm] at h
      simp only [RunOutcome.ret.injEq] at h
      obtain ⟨ho, he, hb, hr, hcl⟩ := h
      subst ho; subst he; subst hb; subst hr; subst hcl
      simp [hm, exceptIsError]
    | ok j0 =>
      rw [hm] at h
      simp only [RunOutcome.ret.injEq] at h
      obtain ⟨ho, he, hb, hr, hcl⟩ := h
      subst ho; subst he; subst hb; subst hr; subst hcl
      constructor
      · simp [hm, exceptIsError]
      · intro hj
        rw [hm] at hj
        cases hj
        exact ⟨rfl, rfl⟩

/-- Witness for C9: the run of the concrete environment returns with a nil
error and the formatter's output, and marshaling succeeded. -/
theorem C9_error_iff_marshal_failure_witness :
    (((none : Option String) ≠ none ↔
        exceptIsError (envOne.marshalIndent [("default", [("configmaps", ["cm-a"])])]) = true) ∧
      (envOne.marshalIndent [("default", [("configmaps", ["cm-a"])])] = .ok "json" →
        (none : Option String) = none ∧
        "rendered" = (envOne.unusedResourceFormatter "json" "\n" "json").1)) :=
  C9_error_iff_marshal_failure envOne ⟨[], []⟩ ⟨true, true⟩ "json" "rendered" none "\n"
    [("default", [("configmaps", ["cm-a"])])]
    [⟨.withFinalizer, ["cm-a"], "default", "configmaps", true⟩] "json" rfl

/-! ## Scan characterization -/

/-- One catalog entry contributes the pending triple (ns, t, n): some gated
resource of the entry has an object that survives the filters, is classified
pending, and carries that namespace and name. -/
def PendingInArl (objectsOf : String → String → List Item) (filterOpts : FilterOptions)
    (arl : APIResourceList) (ns t n : String) : Prop :=
  ∃ r ∈ arl.apiResources, (r.namespaced && r.verbs.contains "list") = true ∧
    ∃ item ∈ objectsOf arl.groupVersion r.name,
      pendingItem filterOpts item ∧ ns = item.ns ∧ t = r.name ∧ n = item.name

/-- Some catalog entry contributes the pending triple (ns, t, n). -/
def PendingInCatalog (objectsOf : String → String → List Item) (filterOpts : FilterOptions)
    (cats : List APIResourceList) (ns t n : String) : Prop :=
  ∃ arl ∈ cats, PendingInArl objectsOf filterOpts arl ns t n

/-- Membership in the global item fold. -/
theorem processItemsGlobal_has (filterOpts : FilterOptions) (rName : String)
    (items : List Item) (acc : NsMap) (ns t n : String) :
    nsMapHas (processItemsGlobal filterOpts rName items acc) ns t n = true ↔
      nsMapHas acc ns t n = true ∨
      ∃ item ∈ items, pendingItem filterOpts item ∧ ns = item.ns ∧ t = rName ∧ n = item.name := by
  induction items generalizing acc with
  | nil => simp [processItemsGlobal]
  | cons x xs ih =>
    have step : processItemsGlobal filterOpts rName (x :: xs) acc =
        processItemsGlobal filterOpts rName xs (processItemGlobal filterOpts rName acc x) := rfl
    rw [step, ih, processItemGlobal_eq, List.exists_mem_cons_iff]
    by_cases hp : pendingItem filterOpts x
    · rw [if_pos hp, nsMapHas_nsMapAppend]
      tauto
    · rw [if_neg hp]
      tauto

/-- Membership in the namespaced item fold. -/
theorem processItemsNamespaced_has (filterOpts : FilterOptions) (rName : String)
    (items : List Item) (acc : TypeMap) (t n : String) :
    typeMapHas (processItemsNamespaced filterOpts rName items acc) t n = true ↔
      typeMapHas acc t n = true ∨
      ∃ item ∈ items, pendingItem filterOpts item ∧ t = rName ∧ n = item.name := by
  induction items generalizing acc with
  | nil => simp [processItemsNamespaced]
  | cons x xs ih =>
    have step : processItemsNamespaced filterOpts rName (x :: xs) acc =
        processItemsNamespaced filterOpts rName xs (processItemNamespaced filterOpts rName acc x) := rfl
    rw [step, ih, processItemNamespaced_eq, List.exists_mem_cons_iff]
    by_cases hp : pendingItem filterOpts x
    · rw [if_pos hp, typeMapHas_typeMapAppend]
      tauto
    · rw [if_neg hp]
      tauto

/-- One-step unfolding of the global resource loop when the list call is
known to succeed. -/
theorem processResourcesGlobal_cons_ok
    (listRes : String → String → String → Except String (List Item))
    (filterOpts : FilterOptions) (gvStr : String) (r : APIResource)
    (rest : List APIResource) (acc : NsMap) (items : List Item)
    (hok : listRes gvStr r.name "" = .ok items) :
    processResourcesGlobal listRes filterOpts gvStr (r :: rest) acc =
      if r.namespaced && r.verbs.contains "list" then
        processResourcesGlobal listRes filterOpts gvStr rest
          (processItemsGlobal filterOpts r.name items acc)
      else processResourcesGlobal listRes filterOpts gvStr rest acc := by
  rw [processResourcesGlobal_cons]
  by_cases hg : (r.namespaced && r.verbs.contains "list") = true
  · rw [if_pos hg, if_pos hg, hok]
  · rw [if_neg hg, if_neg hg]

/-- One-step unfolding of the namespaced resource loop when the list call
is known to succeed. -/
theorem processResourcesNamespaced_cons_ok
    (listRes : String → String → String → Except String (List Item))
    (filterOpts : FilterOptions) (gvStr nsScope : String) (r : APIResource)
    (rest : List APIResource) (acc : TypeMap) (items : List Item)
    (hok : listRes gvStr r.name nsScope = .ok items) :
    processResourcesNamespaced listRes filterOpts gvStr nsScope (r :: rest) acc =
      if r.namespaced && r.verbs.contains "list" then
        processResourcesNamespaced listRes filterOpts gvStr nsScope rest
          (processItemsNamespaced filterOpts r.name items acc)
      else processResourcesNamespaced listRes filterOpts gvStr nsScope rest acc := by
  rw [processResourcesNamespaced_cons]
  by_cases hg : (r.namespaced && r.verbs.contains "list") = true
  · rw [if_pos hg, if_pos hg, hok]
  · rw [if_neg hg, if_neg hg]

/-- Membership in the global resource loop, over a lister whose all-namespaces
calls succeed with the cluster objects. -/
theorem processResourcesGlobal_has
    (listRes : String → String → String → Except String (List Item))
    (filterOpts : FilterOptions) (gvStr : String)
    (objectsOf : String → String → List Item)
    (hall : ∀ rn, listRes gvStr rn "" = Except.ok (objectsOf gvStr rn))
    (rs : List APIResource) (acc : NsMap) (ns t n : String) :
    nsMapHas (processResourcesGlobal listRes filterOpts gvStr rs acc) ns t n = true ↔
      nsMapHas acc ns t n = true ∨
      ∃ r ∈ rs, (r.namespaced && r.verbs.contains "list") = true ∧
        ∃ item ∈ objectsOf gvStr r.name,
          pendingItem filterOpts item ∧ ns = item.ns ∧ t = r.name ∧ n = item.name := by
  induction rs generalizing acc with
  | nil => simp [processResourcesGlobal]
  | cons r rs ih =>
    rw [processResourcesGlobal_cons_ok listRes filterOpts gvStr r rs acc _ (hall r.name),
      List.exists_mem_cons_iff]
    by_cases hg : (r.namespaced && r.verbs.contains "list") = true
    · rw [if_pos hg, ih, processItemsGlobal_has]
      constructor
      · rintro ((h | h) | h)
        · exact Or.inl h
        · exact Or.inr (Or.inl ⟨hg, h⟩)
        · exact Or.inr (Or.inr h)
      · rintro (h | ⟨_, h⟩ | h)
        · exact Or.inl (Or.inl h)
        · exact Or.inl (Or.inr h)
        · exact Or.inr h
    · rw [if_neg hg, ih]
      constructor
      · rintro (h | h)
        · exact Or.inl h
        · exact Or.inr (Or.inr h)
      · rintro (h | ⟨hG, h⟩ | h)
        · exact Or.inl h
        · exact absurd hG hg
        · exact Or.inr h

/-- Existentials over a namespace-filtered object list. -/
theorem exists_mem_filter_ns (L : List Item) (c : String) (P Q : Item → Prop) :
    (∃ i ∈ L.filter (fun i => i.ns == c), P i ∧ Q i) ↔
      ∃ i ∈ L, P i ∧ c = i.ns ∧ Q i := by
  constructor
  · rintro ⟨i, hi, hp, hq⟩
    rw [List.mem_filter] at hi
    have he : i.ns = c := by simpa using hi.2
    exact ⟨i, hi.1, hp, he.symm, hq⟩
  · rintro ⟨i, hi, hp, he, hq⟩
    exact ⟨i, List.mem_filter.mpr ⟨hi, by simp [he.symm]⟩, hp, hq⟩

/-- Membership in the namespaced resource loop, over a lister whose scoped
calls succeed with the namespace-filtered cluster objects. -/
theorem processResourcesNamespaced_has
    (listRes : String → String → String → Except String (List Item))
    (filterOpts : FilterOptions) (gvStr nsScope : String)
    (objectsOf : String → String → List Item)
    (hns : ∀ rn, listRes gvStr rn nsScope =
      Except.ok ((objectsOf gvStr rn).filter (fun i => i.ns == nsScope)))
    (rs : List APIResource) (acc : TypeMap) (t n : String) :
    typeMapHas (processResourcesNamespaced listRes filterOpts gvStr nsScope rs acc) t n = true ↔
      typeMapHas acc t n = true ∨
      ∃ r ∈ rs, (r.namespaced && r.verbs.contains "list") = true ∧
        ∃ item ∈ objectsOf gvStr r.name,
          pendingItem filterOpts item ∧ nsScope = item.ns ∧ t = r.name ∧ n = item.name := by
  induction rs generalizing acc with
  | nil => simp [processResourcesNamespaced]
  | cons r rs ih =>
    rw [processResourcesNamespaced_cons_ok listRes filterOpts gvStr nsScope r rs acc _
      (hns r.name), List.exists_mem_cons_iff]
    by_cases hg : (r.namespaced && r.verbs.contains "list") = true
    · rw [if_pos hg, ih, processItemsNamespaced_has,
        exists_mem_filter_ns (objectsOf gvStr r.name) nsScope
          (fun i => pendingItem filterOpts i) (fun i => t = r.name ∧ n = i.name)]
      constructor
      · rintro ((h | h) | h)
        · exact Or.inl h
        · exact Or.inr (Or.inl ⟨hg, h⟩)
        · exact Or.inr (Or.inr h)
      · rintro (h | ⟨_, h⟩ | h)
        · exact Or.inl (Or.inl h)
        · exact Or.inl (Or.inr h)
        · exact Or.inr h
    · rw [if_neg hg, ih]
      constructor
      · rintro (h | h)
        · exact Or.inl h
        · exact Or.inr (Or.inr h)
      · rintro (h | ⟨hG, h⟩ | h)
        · exact Or.inl h
        · exact absurd hG hg
        · exact Or.inr h

/-- One-step unfolding of the global catalog loop. -/
theorem processCatalogGlobal_cons (parseGV : String → Except String Unit)
    (listRes : String → String → String → Except String (List Item))
    (filterOpts : FilterOptions) (arl : APIResourceList)
    (rest : List APIResourceList) (acc : NsMap) :
    processCatalogGlobal parseGV listRes filterOpts (arl :: rest) acc =
      match parseGV arl.groupVersion with
      | .error e => .errored acc e
      | .ok _ =>
        processCatalogGlobal parseGV listRes filterOpts rest
          (processResourcesGlobal listRes filterOpts arl.groupVersion arl.apiResources acc) := rfl

/-- One-step unfolding of the namespaced catalog loop. -/
theorem processCatalogNamespaced_cons (parseGV : String → Except String Unit)
    (listRes : String → String → String → Except String (List Item))
    (filterOpts : FilterOptions) (ns : String) (arl : APIResourceList)
    (rest : List APIResourceList) (acc : TypeMap) :
    processCatalogNamespaced parseGV listRes filterOpts ns (arl :: rest) acc =
      match parseGV arl.groupVersion with
      | .error e => .errored acc e
      | .ok _ =>
        processCatalogNamespaced parseGV listRes filterOpts ns rest
          (processResourcesNamespaced listRes filterOpts arl.groupVersion ns arl.apiResources acc) := rfl

/-- When every group/version parses and every all-namespaces list call
succeeds, the global catalog loop returns ok, and membership in its result is
exactly membership in the accumulator or a pending triple of the catalog. -/
theorem processCatalogGlobal_has (parseGV : String → Except String Unit)
    (listRes : String → String → String → Except String (List Item))
    (filterOpts : FilterOptions) (objectsOf : String → String → List Item)
    (hall : ∀ gv rn, listRes gv rn "" = Except.ok (objectsOf gv rn)) :
    ∀ (cats : List APIResourceList),
      (∀ arl ∈ cats, parseGV arl.groupVersion = .ok ()) →
      ∀ acc, ∃ gm, processCatalogGlobal parseGV listRes filterOpts cats acc = .ok gm ∧
        ∀ ns t n, nsMapHas gm ns t n = true ↔
          nsMapHas acc ns t n = true ∨
          PendingInCatalog objectsOf filterOpts cats ns t n := by
  intro cats
  induction cats with
  | nil =>
    intro _ acc
    exact ⟨acc, rfl, by simp [PendingInCatalog]⟩
  | cons b rest ih =>
    intro hparse acc
    have hpb : parseGV b.groupVersion = .ok () := hparse b (List.Mem.head _)
    obtain ⟨gm, hgm, hchar⟩ := ih (fun arl h => hparse arl (List.mem_cons_of_mem _ h))
      (processResourcesGlobal listRes filterOpts b.groupVersion b.apiResources acc)
    refine ⟨gm, ?_, ?_⟩
    · rw [processCatalogGlobal_cons, hpb]
      exact hgm
    · intro ns t n
      rw [hchar ns t n,
        processResourcesGlobal_has listRes filterOpts b.groupVersion objectsOf
          (hall b.groupVersion) b.apiResources acc ns t n]
      simp only [PendingInCatalog, PendingInArl, List.exists_mem_cons_iff]
      exact or_assoc

/-- When every group/version parses and every scoped list call succeeds with
the namespace-filtered objects, the namespaced catalog loop returns ok, and
membership in its result is exactly membership in the accumulator or a
pending triple of the catalog at that namespace. -/
theorem processCatalogNamespaced_has (parseGV : String → Except String Unit)
    (listRes : String → String → String → Except String (List Item))
    (filterOpts : FilterOptions) (nsScope : String)
    (objectsOf : String → String → List Item)
    (hns : ∀ gv rn, listRes gv rn nsScope =
      Except.ok ((objectsOf gv rn).filter (fun i => i.ns == nsScope))) :
    ∀ (cats : List APIResourceList),
      (∀ arl ∈ cats, parseGV arl.groupVersion = .ok ()) →
      ∀ acc, ∃ sm, processCatalogNamespaced parseGV listRes filterOpts nsScope cats acc = .ok sm ∧
        ∀ t n, typeMapHas sm t n = true ↔
          typeMapHas acc t n = true ∨
          PendingInCatalog objectsOf filterOpts cats nsScope t n := by
  intro cats
  induction cats with
  | nil =>
    intro _ acc
    exact ⟨acc, rfl, by simp [PendingInCatalog]⟩
  | cons b rest ih =>
    intro hparse acc
    have hpb : parseGV b.groupVersion = .ok () := hparse b (List.Mem.head _)
    obtain ⟨sm, hsm, hchar⟩ := ih (fun arl h => hparse arl (List.mem_cons_of_mem _ h))
      (processResourcesNamespaced listRes filterOpts b.groupVersion nsScope b.apiResources acc)
    refine ⟨sm, ?_, ?_⟩
    · rw [processCatalogNamespaced_cons, hpb]
      exact hsm
    · intro t n
      rw [hchar t n,
        processResourcesNamespaced_has listRes filterOpts b.groupVersion nsScope objectsOf
          (hns b.groupVersion) b.apiResources acc t n]
      simp only [PendingInCatalog, PendingInArl, List.exists_mem_cons_iff]
      exact or_assoc

/-- C3: over an error-free cluster state (discovery returns a catalog whose
group/versions all parse; the all-namespaces list call of each type returns
the cluster's objects and each scoped list call returns exactly the objects
of that namespace) whose objects all live in the resolved namespace list, the
global scan and the scoped scan agree on the set of
(namespace, resource-type, object-name) pending entries: a triple is in the
global result iff its namespace is in the list and the name is in that
namespace's scoped result. -/
theorem C3_global_scoped_agree (c : Cluster) (filterOpts : FilterOptions)
    (namespaces : List String) (catalog : List APIResourceList)
    (objectsOf : String → String → List Item) (gm : NsMap) (sm : TypeMap)
    (ns t n : String)
    (hcat : c.serverPreferredResources = .ok catalog)
    (hparse : ∀ arl ∈ catalog, c.parseGroupVersion arl.groupVersion = .ok ())
    (hall : ∀ gv rn, c.listResource gv rn "" = Except.ok (objectsOf gv rn))
    (hscoped : ∀ gv rn x, x ∈ namespaces →
      c.listResource gv rn x = Except.ok ((objectsOf gv rn).filter (fun i => i.ns == x)))
    (hcover : ∀ gv rn item, item ∈ objectsOf gv rn → item.ns ∈ namespaces)
    (hgm : getResourcesWithFinalizersPendingDeletion c filterOpts namespaces = .ok gm)
    (hsm : getNamespacedResourcesWithFinalizersPendingDeletion c filterOpts ns = .ok sm) :
    nsMapHas gm ns t n = true ↔ ns ∈ namespaces ∧ typeMapHas sm t n = true := by
  obtain ⟨gm0, hgm0, hcharG⟩ := processCatalogGlobal_has c.parseGroupVersion c.listResource
    filterOpts objectsOf hall catalog hparse []
  have hgm2 : processCatalogGlobal c.parseGroupVersion c.listResource filterOpts catalog [] =
      .ok gm := by
    unfold getResourcesWithFinalizersPendingDeletion at hgm
    rw [hcat] at hgm
    exact hgm
  rw [hgm0] at hgm2
  cases hgm2
  constructor
  · intro hmem
    have hp : PendingInCatalog objectsOf filterOpts catalog ns t n := by
      rcases (hcharG ns t n).mp hmem with h | h
      · simp [nsMapHas] at h
      · exact h
    have hnsmem : ns ∈ namespaces := by
      have hp2 := hp
      simp only [PendingInCatalog, PendingInArl] at hp2
      obtain ⟨arl, harl, r, hr, hgate, item, hitem, hpend, hnse, hte, hne⟩ := hp2
      rw [hnse]
      exact hcover _ _ _ hitem
    obtain ⟨sm0, hsm0, hcharN⟩ := processCatalogNamespaced_has c.parseGroupVersion
      c.listResource filterOpts ns objectsOf (fun gv rn => hscoped gv rn ns hnsmem)
      catalog hparse []
    have hsm2 : processCatalogNamespaced c.parseGroupVersion c.listResource filterOpts ns
        catalog [] = .ok sm := by
      unfold getNamespacedResourcesWithFinalizersPendingDeletion at hsm
      rw [hcat] at hsm
      exact hsm
    rw [hsm0] at hsm2
    cases hsm2
    refine ⟨hnsmem, ?_⟩
    rw [hcharN t n]
    exact Or.inr hp
  · rintro ⟨hnsmem, hsmmem⟩
    obtain ⟨sm0, hsm0, hcharN⟩ := processCatalogNamespaced_has c.parseGroupVersion
      c.listResource filterOpts ns objectsOf (fun gv rn => hscoped gv rn ns hnsmem)
      catalog hparse []
    have hsm2 : processCatalogNamespaced c.parseGroupVersion c.listResource filterOpts ns
        catalog [] = .ok sm := by
      unfold getNamespacedResourcesWithFinalizersPendingDeletion at hsm
      rw [hcat] at hsm
      exact hsm
    rw [hsm0] at hsm2
    cases hsm2
    have hp : PendingInCatalog objectsOf filterOpts catalog ns t n := by
      rcases (hcharN t n).mp hsmmem with h | h
      · simp [typeMapHas] at h
      · exact h
    rw [hcharG ns t n]
    exact Or.inr hp

/-- Cluster objects for the C3 witness: one pending configmap in `default`. -/
def objectsOfW : String → String → List Item := fun gv r =>
  if gv == "v1" && r == "configmaps" then [itemCmA] else []

/-- A consistent cluster built from `objectsOfW`: the all-namespaces list
returns the objects, a scoped list returns the namespace filter. -/
def clusterC3 : Cluster :=
  { serverPreferredResources := .ok catalogOne,
    parseGroupVersion := fun _ => .ok (),
    listResource := fun gv r ns =>
      if ns == "" then .ok (objectsOfW gv r)
      else .ok ((objectsOfW gv r).filter (fun i => i.ns == ns)) }

/-- Witness for C3 at a concrete consistent cluster. -/
theorem C3_global_scoped_agree_witness :
    nsMapHas [("default", [("configmaps", ["cm-a"])])] "default" "configmaps" "cm-a" = true ↔
      "default" ∈ ["default"] ∧
      typeMapHas [("configmaps", ["cm-a"])] "configmaps" "cm-a" = true :=
  C3_global_scoped_agree clusterC3 filterOptsTrivial ["default"] catalogOne objectsOfW
    [("default", [("configmaps", ["cm-a"])])] [("configmaps", ["cm-a"])]
    "default" "configmaps" "cm-a"
    rfl
    (fun _ _ => rfl)
    (fun _ _ => rfl)
    (by
      intro gv rn x hx
      simp only [List.mem_singleton] at hx
      subst hx
      rfl)
    (by
      intro gv rn item h
      simp only [objectsOfW] at h
      split at h
      · simp only [List.mem_singleton] at h
        subst h
        simp [itemCmA]
      · simp at h)
    rfl
    rfl

/-! ## Accumulator invariants -/

/-- Namespace keys after a nested append: old keys, or the appended one. -/
theorem mem_keys_nsMapAppend (m : NsMap) (a b c : String) (x : String)
    (h : x ∈ (nsMapAppend m a b c).map Prod.fst) :
    x ∈ m.map Prod.fst ∨ x = a := by
  induction m with
  | nil => simpa [nsMapAppend] using h
  | cons p rest ih =>
    obtain ⟨k, tm⟩ := p
    by_cases hk : k = a
    · subst hk
      left
      simpa [nsMapAppend] using h
    · simp only [nsMapAppend, if_neg hk, List.map_cons, List.mem_cons] at h
      rcases h with h | h
      · exact Or.inl (by simp [h])
      · rcases ih h with h' | h'
        · exact Or.inl (by simp [h'])
        · exact Or.inr h'

/-- A nested append preserves distinctness of namespace keys. -/
theorem nodup_keys_nsMapAppend (m : NsMap) (a b c : String)
    (h : (m.map Prod.fst).Nodup) : ((nsMapAppend m a b c).map Prod.fst).Nodup := by
  induction m with
  | nil => simp [nsMapAppend]
  | cons p rest ih =>
    obtain ⟨k, tm⟩ := p
    simp only [List.map_cons, List.nodup_cons] at h
    by_cases hk : k = a
    · subst hk
      simp only [nsMapAppend, eq_self_iff_true, if_true, List.map_cons, List.nodup_cons]
      exact h
    · simp only [nsMapAppend, if_neg hk, List.map_cons, List.nodup_cons]
      refine ⟨?_, ih h.2⟩
      intro hc
      rcases mem_keys_nsMapAppend rest a b c k hc with h' | h'
      · exact h.1 h'
      · exact hk h'

/-- Namespace keys distinct in the global per-item step. -/
theorem nodup_keys_processItemGlobal (filterOpts : FilterOptions) (r : String)
    (acc : NsMap) (item : Item) (h : (acc.map Prod.fst).Nodup) :
    ((processItemGlobal filterOpts r acc item).map Prod.fst).Nodup := by
  rw [processItemGlobal_eq]
  by_cases hp : pendingItem filterOpts item
  · rw [if_pos hp]
    exact nodup_keys_nsMapAppend acc item.ns r item.name h
  · rw [if_neg hp]
    exact h

/-- Namespace keys distinct through the global item fold. -/
theorem nodup_keys_processItemsGlobal (filterOpts : FilterOptions) (r : String)
    (items : List Item) (acc : NsMap) (h : (acc.map Prod.fst).Nodup) :
    ((processItemsGlobal filterOpts r items acc).map Prod.fst).Nodup := by
  induction items generalizing acc with
  | nil => exact h
  | cons x xs ih =>
    exact ih (processItemGlobal filterOpts r acc x)
      (nodup_keys_processItemGlobal filterOpts r acc x h)

/-- Namespace keys distinct through the global resource loop. -/
theorem nodup_keys_processResourcesGlobal
    (listRes : String → String → String → Except String (List Item))
    (filterOpts : FilterOptions) (gvStr : String) (rs : List APIResource)
    (acc : NsMap) (h : (acc.map Prod.fst).Nodup) :
    ((processResourcesGlobal listRes filterOpts gvStr rs acc).map Prod.fst).Nodup := by
  induction rs generalizing acc with
  | nil => exact h
  | cons r rs ih =>
    rw [processResourcesGlobal_cons]
    by_cases hg : (r.namespaced && r.verbs.contains "list") = true
    · rw [if_pos hg]
      cases hl : listRes gvStr r.name "" with
      | error e => exact ih acc h
      | ok items =>
        exact ih _ (nodup_keys_processItemsGlobal filterOpts r.name items acc h)
    · rw [if_neg hg]
      exact ih acc h

/-- Namespace keys distinct in whatever map the global catalog loop returns. -/
theorem nodup_keys_processCatalogGlobal (parseGV : String → Except String Unit)
    (listRes : String → String → String → Except String (List Item))
    (filterOpts : FilterOptions) (cats : List APIResourceList) (acc : NsMap) (gm : NsMap)
    (h : (acc.map Prod.fst).Nodup)
    (hv : scanValue (processCatalogGlobal parseGV listRes filterOpts cats acc) = some gm) :
    (gm.map Prod.fst).Nodup := by
  induction cats generalizing acc with
  | nil =>
    simp only [processCatalogGlobal, scanValue, Option.some.injEq] at hv
    subst hv
    exact h
  | cons b rest ih =>
    rw [processCatalogGlobal_cons] at hv
    cases hp : parseGV b.groupVersion with
    | error e =>
      rw [hp] at hv
      simp only [scanValue, Option.some.injEq] at hv
      subst hv
      exact h
    | ok u =>
      rw [hp] at hv
      exact ih _ (nodup_keys_processResourcesGlobal listRes filterOpts
        b.groupVersion b.apiResources acc h) hv

/-- Namespace keys distinct in whatever map the global scan returns. -/
theorem nodup_keys_getResources (c : Cluster) (filterOpts : FilterOptions)
    (namespaces : List String) (gm : NsMap)
    (hv : scanValue (getResourcesWithFinalizersPendingDeletion c filterOpts namespaces) =
      some gm) :
    (gm.map Prod.fst).Nodup := by
  unfold getResourcesWithFinalizersPendingDeletion at hv
  cases hd : c.serverPreferredResources with
  | error e =>
    rw [hd] at hv
    simp [scanValue] at hv
  | ok cats =>
    rw [hd] at hv
    exact nodup_keys_processCatalogGlobal c.parseGroupVersion c.listResource filterOpts
      cats [] gm (by simp) hv

/-- All name lists of a TypeMap are non-empty. -/
def goodTypeMap (tm : TypeMap) : Prop := ∀ q ∈ tm, q.2 ≠ []

/-- All inner maps are non-empty and all their name lists are non-empty. -/
def goodNsMap (m : NsMap) : Prop := ∀ p ∈ m, p.2 ≠ [] ∧ goodTypeMap p.2

/-- Appending a name preserves non-empty name lists. -/
theorem goodTypeMap_typeMapAppend (tm : TypeMap) (t n : String)
    (h : goodTypeMap tm) : goodTypeMap (typeMapAppend tm t n) := by
  induction tm with
  | nil =>
    intro q hq
    simp only [typeMapAppend, List.mem_singleton] at hq
    subst hq
    simp
  | cons p rest ih =>
    obtain ⟨k, vs⟩ := p
    by_cases hk : k = t
    · subst hk
      intro q hq
      simp only [typeMapAppend, eq_self_iff_true, if_true, List.mem_cons] at hq
      rcases hq with hq | hq
      · subst hq
        simp
      · exact h q (List.mem_cons_of_mem _ hq)
    · intro q hq
      simp only [typeMapAppend, if_neg hk, List.mem_cons] at hq
      rcases hq with hq | hq
      · subst hq
        exact h (k, vs) (List.Mem.head _)
      · exact ih (fun q' hq' => h q' (List.mem_cons_of_mem _ hq')) q hq

/-- The result of a typeMapAppend is never the empty map. -/
theorem typeMapAppend_ne_nil (tm : TypeMap) (t n : String) :
    typeMapAppend tm t n ≠ [] := by
  cases tm with
  | nil => simp [typeMapAppend]
  | cons p rest =>
    obtain ⟨k, vs⟩ := p
    by_cases hk : k = t <;> simp [typeMapAppend, hk]

/-- A nested append preserves the non-emptiness invariants. -/
theorem goodNsMap_nsMapAppend (m : NsMap) (a b c : String)
    (h : goodNsMap m) : goodNsMap (nsMapAppend m a b c) := by
  induction m with
  | nil =>
    intro p hp
    simp only [nsMapAppend, List.mem_singleton] at hp
    subst hp
    exact ⟨typeMapAppend_ne_nil [] b c, goodTypeMap_typeMapAppend [] b c (by intro q hq; cases hq)⟩
  | cons p0 rest ih =>
    obtain ⟨k, tm⟩ := p0
    by_cases hk : k = a
    · subst hk
      intro p hp
      simp only [nsMapAppend, eq_self_iff_true, if_true, List.mem_cons] at hp
      rcases hp with hp | hp
      · subst hp
        exact ⟨typeMapAppend_ne_nil tm b c,
          goodTypeMap_typeMapAppend tm b c (h (k, tm) (List.Mem.head _)).2⟩
      · exact h p (List.mem_cons_of_mem _ hp)
    · intro p hp
      simp only [nsMapAppend, if_neg hk, List.mem_cons] at hp
      rcases hp with hp | hp
      · subst hp
        exact h (k, tm) (List.Mem.head _)
      · exact ih (fun p' hp' => h p' (List.mem_cons_of_mem _ hp')) p hp

/-- The invariants hold through the global per-item step. -/
theorem goodNsMap_processItemGlobal (filterOpts : FilterOptions) (r : String)
    (acc : NsMap) (item : Item) (h : goodNsMap acc) :
    goodNsMap (processItemGlobal filterOpts r acc item) := by
  rw [processItemGlobal_eq]
  by_cases hp : pendingItem filterOpts item
  · rw [if_pos hp]
    exact goodNsMap_nsMapAppend acc item.ns r item.name h
  · rw [if_neg hp]
    exact h

/-- The invariants hold through the global item fold. -/
theorem goodNsMap_processItemsGlobal (filterOpts : FilterOptions) (r : String)
    (items : List Item) (acc : NsMap) (h : goodNsMap acc) :
    goodNsMap (processItemsGlobal filterOpts r items acc) := by
  induction items generalizing acc with
  | nil => exact h
  | cons x xs ih =>
    exact ih (processItemGlobal filterOpts r acc x)
      (goodNsMap_processItemGlobal filterOpts r acc x h)

/-- The invariants hold through the global resource loop. -/
theorem goodNsMap_processResourcesGlobal
    (listRes : String → String → String → Except String (List Item))
    (filterOpts : FilterOptions) (gvStr : String) (rs : List APIResource)
    (acc : NsMap) (h : goodNsMap acc) :
    goodNsMap (processResourcesGlobal listRes filterOpts gvStr rs acc) := by
  induction rs generalizing acc with
  | nil => exact h
  | cons r rs ih =>
    rw [processResourcesGlobal_cons]
    by_cases hg : (r.namespaced && r.verbs.contains "list") = true
    · rw [if_pos hg]
      cases hl : listRes gvStr r.name "" with
      | error e => exact ih acc h
      | ok items => exact ih _ (goodNsMap_processItemsGlobal filterOpts r.name items acc h)
    · rw [if_neg hg]
      exact ih acc h

/-- The invariants hold for whatever map the global catalog loop returns. -/
theorem goodNsMap_processCatalogGlobal (parseGV : String → Except String Unit)
    (listRes : String → String → String → Except String (List Item))
    (filterOpts : FilterOptions) (cats : List APIResourceList) (acc : NsMap) (gm : NsMap)
    (h : goodNsMap acc)
    (hv : scanValue (processCatalogGlobal parseGV listRes filterOpts cats acc) = some gm) :
    goodNsMap gm := by
  induction cats generalizing acc with
  | nil =>
    simp only [processCatalogGlobal, scanValue, Option.some.injEq] at hv
    subst hv
    exact h
  | cons b rest ih =>
    rw [processCatalogGlobal_cons] at hv
    cases hp : parseGV b.groupVersion with
    | error e =>
      rw [hp] at hv
      simp only [scanValue, Option.some.injEq] at hv
      subst hv
      exact h
    | ok u =>
      rw [hp] at hv
      exact ih _ (goodNsMap_processResourcesGlobal listRes filterOpts
        b.groupVersion b.apiResources acc h) hv

/-- The invariants hold for whatever map the global scan returns. -/
theorem goodNsMap_getResources (c : Cluster) (filterOpts : FilterOptions)
    (namespaces : List String) (gm : NsMap)
    (hv : scanValue (getResourcesWithFinalizersPendingDeletion c filterOpts namespaces) =
      some gm) :
    goodNsMap gm := by
  unfold getResourcesWithFinalizersPendingDeletion at hv
  cases hd : c.serverPreferredResources with
  | error e =>
    rw [hd] at hv
    simp [scanValue] at hv
  | ok cats =>
    rw [hd] at hv
    exact goodNsMap_processCatalogGlobal c.parseGroupVersion c.listResource filterOpts
      cats [] gm (by intro p hp; cases hp) hv

/-- Non-empty name lists through the namespaced per-item step. -/
theorem goodTypeMap_processItemNamespaced (filterOpts : FilterOptions) (r : String)
    (acc : TypeMap) (item : Item) (h : goodTypeMap acc) :
    goodTypeMap (processItemNamespaced filterOpts r acc item) := by
  rw [processItemNamespaced_eq]
  by_cases hp : pendingItem filterOpts item
  · rw [if_pos hp]
    exact goodTypeMap_typeMapAppend acc r item.name h
  · rw [if_neg hp]
    exact h

/-- Non-empty name lists through the namespaced item fold. -/
theorem goodTypeMap_processItemsNamespaced (filterOpts : FilterOptions) (r : String)
    (items : List Item) (acc : TypeMap) (h : goodTypeMap acc) :
    goodTypeMap (processItemsNamespaced filterOpts r items acc) := by
  induction items generalizing acc with
  | nil => exact h
  | cons x xs ih =>
    exact ih (processItemNamespaced filterOpts r acc x)
      (goodTypeMap_processItemNamespaced filterOpts r acc x h)

/-- Non-empty name lists through the namespaced resource loop. -/
theorem goodTypeMap_processResourcesNamespaced
    (listRes : String → String → String → Except String (List Item))
    (filterOpts : FilterOptions) (gvStr ns : String) (rs : List APIResource)
    (acc : TypeMap) (h : goodTypeMap acc) :
    goodTypeMap (processResourcesNamespaced listRes filterOpts gvStr ns rs acc) := by
  induction rs generalizing acc with
  | nil => exact h
  | cons r rs ih =>
    rw [processResourcesNamespaced_cons]
    by_cases hg : (r.namespaced && r.verbs.contains "list") = true
    · rw [if_pos hg]
      cases hl : listRes gvStr r.name ns with
      | error e => exact ih acc h
      | ok items => exact ih _ (goodTypeMap_processItemsNamespaced filterOpts r.name items acc h)
    · rw [if_neg hg]
      exact ih acc h

/-- Non-empty name lists for whatever map the namespaced catalog loop returns. -/
theorem goodTypeMap_processCatalogNamespaced (parseGV : String → Except String Unit)
    (listRes : String → String → String → Except String (List Item))
    (filterOpts : FilterOptions) (ns : String) (cats : List APIResourceList)
    (acc : TypeMap) (sm : TypeMap) (h : goodTypeMap acc)
    (hv : scanValue (processCatalogNamespaced parseGV listRes filterOpts ns cats acc) =
      some sm) :
    goodTypeMap sm := by
  induction cats generalizing acc with
  | nil =>
    simp only [processCatalogNamespaced, scanValue, Option.some.injEq] at hv
    subst hv
    exact h
  | cons b rest ih =>
    rw [processCatalogNamespaced_cons] at hv
    cases hp : parseGV b.groupVersion with
    | error e =>
      rw [hp] at hv
      simp only [scanValue, Option.some.injEq] at hv
      subst hv
      exact h
    | ok u =>
      rw [hp] at hv
      exact ih _ (goodTypeMap_processResourcesNamespaced listRes filterOpts
        b.groupVersion ns b.apiResources acc h) hv

/-- Non-empty name lists for whatever map the scoped scan returns. -/
theorem goodTypeMap_getNamespaced (c : Cluster) (filterOpts : FilterOptions)
    (ns : String) (sm : TypeMap)
    (hv : scanValue (getNamespacedResourcesWithFinalizersPendingDeletion c filterOpts ns) =
      some sm) :
    goodTypeMap sm := by
  unfold getNamespacedResourcesWithFinalizersPendingDeletion at hv
  cases hd : c.serverPreferredResources with
  | error e =>
    rw [hd] at hv
    simp [scanValue] at hv
  | ok cats =>
    rw [hd] at hv
    exact goodTypeMap_processCatalogNamespaced c.parseGroupVersion c.listResource filterOpts
      ns cats [] sm (by intro q hq; cases hq) hv

/-- `m[k] = v` on a map without the key appends the binding at the end. -/
theorem nsMapSet_fresh (m : NsMap) (k : String) (v : TypeMap)
    (h : k ∉ m.map Prod.fst) : nsMapSet m k v = m ++ [(k, v)] := by
  induction m with
  | nil => rfl
  | cons p rest ih =>
    obtain ⟨k', tm⟩ := p
    simp only [List.map_cons, List.mem_cons] at h
    push_neg at h
    simp only [nsMapSet, if_neg (Ne.symm h.1), List.cons_append]
    rw [ih h.2]

/-- A returned `finishRun` carries its buffer, response and calls verbatim. -/
theorem finishRun_ret (env : Env) (fmt b : String) (r : NsMap) (cl : List DeleteCall)
    (out : String) (err : Option String) (buf : String) (resp : NsMap)
    (calls : List DeleteCall)
    (h : finishRun env fmt b r cl = .ret out err buf resp calls) :
    buf = b ∧ resp = r ∧ calls = cl := by
  unfold finishRun at h
  cases hm : env.marshalIndent r with
  | error e =>
    rw [hm] at h
    simp only [RunOutcome.ret.injEq] at h
    exact ⟨h.2.2.1.symm, h.2.2.2.1.symm, h.2.2.2.2.symm⟩
  | ok j =>
    rw [hm] at h
    simp only [RunOutcome.ret.injEq] at h
    exact ⟨h.2.2.1.symm, h.2.2.2.1.symm, h.2.2.2.2.symm⟩

/-- `GetUnusedfinalizers` in global mode: one all-namespaces scan feeding the
global branch fold. -/
theorem getUnusedfinalizers_global (env : Env) (lists : IncludeExcludeLists)
    (opts : Opts) (fmt : String)
    (hcond : lists.ExcludeListStr.length = 0 ∧ lists.IncludeListStr.length = 0) :
    GetUnusedfinalizers env lists opts fmt =
      match getResourcesWithFinalizersPendingDeletion env.cluster env.filterOpts
          (env.setNamespaceList lists) with
      | .exitProcess code => .exit code
      | .errored m _ =>
        finishRun env fmt
          (globalBranchFold env opts (env.setNamespaceList lists) m "" [] []).1
          (globalBranchFold env opts (env.setNamespaceList lists) m "" [] []).2.1
          (globalBranchFold env opts (env.setNamespaceList lists) m "" [] []).2.2
      | .ok m =>
        finishRun env fmt
          (globalBranchFold env opts (env.setNamespaceList lists) m "" [] []).1
          (globalBranchFold env opts (env.setNamespaceList lists) m "" [] []).2.1
          (globalBranchFold env opts (env.setNamespaceList lists) m "" [] []).2.2 := by
  simp only [GetUnusedfinalizers]
  rw [if_pos hcond]

/-- `GetUnusedfinalizers` in scoped mode: the per-namespace fold. -/
theorem getUnusedfinalizers_scoped (env : Env) (lists : IncludeExcludeLists)
    (opts : Opts) (fmt : String)
    (hcond : ¬(lists.ExcludeListStr.length = 0 ∧ lists.IncludeListStr.length = 0)) :
    GetUnusedfinalizers env lists opts fmt =
      match scopedBranchFold env opts (env.setNamespaceList lists) "" [] [] with
      | .error code => .exit code
      | .ok (buf, resp, calls) => finishRun env fmt buf resp calls := by
  simp only [GetUnusedfinalizers]
  rw [if_neg hcond]

/-- A call traced from one delete-helper invocation group carries its path
and namespace. -/
theorem mem_deleteCallsOf (path : DeletePath) (flag noni : Bool) (ns : String)
    (data : TypeMap) (dcall : DeleteCall)
    (h : dcall ∈ deleteCallsOf path flag noni ns data) :
    dcall.path = path ∧ dcall.ns = ns := by
  cases flag with
  | false => simp [deleteCallsOf] at h
  | true =>
    simp only [deleteCallsOf] at h
    rw [if_true] at h
    rw [List.mem_map] at h
    obtain ⟨p, hp, he⟩ := h
    subst he
    exact ⟨rfl, rfl⟩

/-- Response component of the global branch fold: the kept entries appended
to the accumulator, provided the incoming entries have distinct fresh keys. -/
theorem globalBranchFold_resp (env : Env) (opts : Opts) (nss : List String) :
    ∀ (entries : List (String × TypeMap)) (buf : String) (resp : NsMap)
      (calls : List DeleteCall),
      (∀ p ∈ entries, p.1 ∉ resp.map Prod.fst) → (entries.map Prod.fst).Nodup →
      (globalBranchFold env opts nss entries buf resp calls).2.1 =
        resp ++ entries.filter (fun p => nss.contains p.1) := by
  intro entries
  induction entries with
  | nil =>
    intro buf resp calls _ _
    simp [globalBranchFold]
  | cons p rest ih =>
    obtain ⟨ns, data⟩ := p
    intro buf resp calls hfresh hnodup
    simp only [List.map_cons, List.nodup_cons] at hnodup
    by_cases hc : nss.contains ns = true
    · have hset : nsMapSet resp ns data = resp ++ [(ns, data)] :=
        nsMapSet_fresh resp ns data (hfresh (ns, data) (List.Mem.head _))
      have hstep : globalBranchFold env opts nss ((ns, data) :: rest) buf resp calls =
          globalBranchFold env opts nss rest
            (buf ++ env.formatOutputFromMap ns data ++ "\n")
            (nsMapSet resp ns data)
            (calls ++ deleteCallsOf .withFinalizer opts.deleteFlag opts.noInteractive ns data) := by
        simp only [globalBranchFold]
        rw [if_pos hc]
      rw [hstep, hset]
      rw [ih _ _ _ ?_ hnodup.2]
      · have hmem : ns ∈ nss := List.mem_of_elem_eq_true hc
        simp [List.filter_cons, hmem]
      · intro q hq
        simp only [List.map_append, List.mem_append, List.map_cons]
        push_neg
        constructor
        · exact hfresh q (List.mem_cons_of_mem _ hq)
        · intro hq2
          simp only [List.map_nil, List.mem_singleton] at hq2
          exact hnodup.1 (hq2 ▸ (List.mem_map_of_mem Prod.fst hq))
    · have hstep : globalBranchFold env opts nss ((ns, data) :: rest) buf resp calls =
          globalBranchFold env opts nss rest buf resp calls := by
        simp only [globalBranchFold]
        rw [if_neg hc]
      rw [hstep, ih _ _ _ (fun q hq => hfresh q (List.mem_cons_of_mem _ hq)) hnodup.2]
      simp only [List.filter_cons, hc]
      simp

/-- Delete-call trace of the global branch fold: old calls, or calls with the
finalizer-aware path on a kept namespace. -/
theorem globalBranchFold_calls_mem (env : Env) (opts : Opts) (nss : List String) :
    ∀ (entries : List (String × TypeMap)) (buf : String) (resp : NsMap)
      (calls : List DeleteCall) (dcall : DeleteCall),
      dcall ∈ (globalBranchFold env opts nss entries buf resp calls).2.2 →
      dcall ∈ calls ∨ (dcall.path = .withFinalizer ∧ dcall.ns ∈ nss) := by
  intro entries
  induction entries with
  | nil =>
    intro buf resp calls dcall h
    exact Or.inl h
  | cons p rest ih =>
    obtain ⟨ns, data⟩ := p
    intro buf resp calls dcall h
    by_cases hc : nss.contains ns = true
    · have hstep : globalBranchFold env opts nss ((ns, data) :: rest) buf resp calls =
          globalBranchFold env opts nss rest
            (buf ++ env.formatOutputFromMap ns data ++ "\n")
            (nsMapSet resp ns data)
            (calls ++ deleteCallsOf .withFinalizer opts.deleteFlag opts.noInteractive ns data) := by
        simp only [globalBranchFold]
        rw [if_pos hc]
      rw [hstep] at h
      rcases ih _ _ _ dcall h with h' | h'
      · rcases List.mem_append.mp h' with h'' | h''
        · exact Or.inl h''
        · obtain ⟨hpath, hns⟩ := mem_deleteCallsOf _ _ _ _ _ _ h''
          exact Or.inr ⟨hpath, by rw [hns]; exact List.mem_of_elem_eq_true hc⟩
      · exact Or.inr h'
    · have hstep : globalBranchFold env opts nss ((ns, data) :: rest) buf resp calls =
          globalBranchFold env opts nss rest buf resp calls := by
        simp only [globalBranchFold]
        rw [if_neg hc]
      rw [hstep] at h
      exact ih _ _ _ dcall h

/-- One-step unfolding of the scoped branch fold. -/
theorem scopedBranchFold_cons (env : Env) (opts : Opts) (ns : String)
    (rest : List String) (buf : String) (resp : NsMap) (calls : List DeleteCall) :
    scopedBranchFold env opts (ns :: rest) buf resp calls =
      match getNamespacedResourcesWithFinalizersPendingDeletion env.cluster env.filterOpts ns with
      | .exitProcess code => .error code
      | .errored _ _ => scopedBranchFold env opts rest buf resp calls
      | .ok resourceDiffs =>
        scopedBranchFold env opts rest
          (buf ++ env.formatOutputFromMap ns resourceDiffs ++ "\n")
          (nsMapSet resp ns resourceDiffs)
          (calls ++ deleteCallsOf .plain opts.deleteFlag opts.noInteractive ns resourceDiffs) := rfl

/-- Entries of the scoped branch fold's response: already present, or set from
a successful scoped scan of a listed namespace. -/
theorem scopedBranchFold_resp_mem (env : Env) (opts : Opts) :
    ∀ (l : List String) (buf : String) (resp : NsMap) (calls : List DeleteCall)
      (b : String) (r : NsMap) (cl : List DeleteCall),
      scopedBranchFold env opts l buf resp calls = .ok (b, r, cl) →
      ∀ p ∈ r, p ∈ resp ∨ (p.1 ∈ l ∧
        getNamespacedResourcesWithFinalizersPendingDeletion env.cluster env.filterOpts p.1 =
          .ok p.2) := by
  intro l
  induction l with
  | nil =>
    intro buf resp calls b r cl h p hp
    simp only [scopedBranchFold, Except.ok.injEq, Prod.mk.injEq] at h
    rw [← h.2.1] at hp
    exact Or.inl hp
  | cons ns rest ih =>
    intro buf resp calls b r cl h p hp
    rw [scopedBranchFold_cons] at h
    cases hscan : getNamespacedResourcesWithFinalizersPendingDeletion env.cluster
        env.filterOpts ns with
    | exitProcess code =>
      rw [hscan] at h
      cases h
    | errored m e =>
      rw [hscan] at h
      rcases ih _ _ _ _ _ _ h p hp with h' | h'
      · exact Or.inl h'
      · exact Or.inr ⟨List.mem_cons_of_mem _ h'.1, h'.2⟩
    | ok resourceDiffs =>
      rw [hscan] at h
      rcases ih _ _ _ _ _ _ h p hp with h' | h'
      · rcases mem_nsMapSet resp ns resourceDiffs p h' with h'' | h''
        · exact Or.inl h''
        · refine Or.inr ⟨?_, ?_⟩
          · rw [h'']
            exact List.Mem.head _
          · rw [h'']
            exact hscan
      · exact Or.inr ⟨List.mem_cons_of_mem _ h'.1, h'.2⟩

/-- Keys of the scoped branch fold's response: old keys, or namespaces of the
list whose scoped scan succeeded. -/
theorem scopedBranchFold_keys (env : Env) (opts : Opts) :
    ∀ (l : List String) (buf : String) (resp : NsMap) (calls : List DeleteCall)
      (b : String) (r : NsMap) (cl : List DeleteCall),
      scopedBranchFold env opts l buf resp calls = .ok (b, r, cl) →
      ∀ x, x ∈ r.map Prod.fst ↔ x ∈ resp.map Prod.fst ∨ (x ∈ l ∧
        ∃ tm, getNamespacedResourcesWithFinalizersPendingDeletion env.cluster
          env.filterOpts x = .ok tm) := by
  intro l
  induction l with
  | nil =>
    intro buf resp calls b r cl h x
    simp only [scopedBranchFold, Except.ok.injEq, Prod.mk.injEq] at h
    rw [← h.2.1]
    simp
  | cons ns rest ih =>
    intro buf resp calls b r cl h x
    rw [scopedBranchFold_cons] at h
    cases hscan : getNamespacedResourcesWithFinalizersPendingDeletion env.cluster
        env.filterOpts ns with
    | exitProcess code =>
      rw [hscan] at h
      cases h
    | errored m e =>
      rw [hscan] at h
      rw [ih _ _ _ _ _ _ h x]
      constructor
      · rintro (h' | ⟨h1, h2⟩)
        · exact Or.inl h'
        · exact Or.inr ⟨List.mem_cons_of_mem _ h1, h2⟩
      · rintro (h' | ⟨h1, h2⟩)
        · exact Or.inl h'
        · rcases List.mem_cons.mp h1 with h1' | h1'
          · subst h1'
            obtain ⟨tm, htm⟩ := h2
            rw [hscan] at htm
            cases htm
          · exact Or.inr ⟨h1', h2⟩
    | ok resourceDiffs =>
      rw [hscan] at h
      rw [ih _ _ _ _ _ _ h x, keys_nsMapSet]
      constructor
      · rintro ((h' | h') | ⟨h1, h2⟩)
        · exact Or.inl h'
        · subst h'
          exact Or.inr ⟨List.Mem.head _, resourceDiffs, hscan⟩
        · exact Or.inr ⟨List.mem_cons_of_mem _ h1, h2⟩
      · rintro (h' | ⟨h1, h2⟩)
        · exact Or.inl (Or.inl h')
        · rcases List.mem_cons.mp h1 with h1' | h1'
          · exact Or.inl (Or.inr h1')
          · exact Or.inr ⟨h1', h2⟩

/-- Delete-call trace of the scoped branch fold: old calls, or calls with the
plain path on a listed namespace. -/
theorem scopedBranchFold_calls_mem (env : Env) (opts : Opts) :
    ∀ (l : List String) (buf : String) (resp : NsMap) (calls : List DeleteCall)
      (b : String) (r : NsMap) (cl : List DeleteCall),
      scopedBranchFold env opts l buf resp calls = .ok (b, r, cl) →
      ∀ dcall ∈ cl, dcall ∈ calls ∨ (dcall.path = .plain ∧ dcall.ns ∈ l) := by
  intro l
  induction l with
  | nil =>
    intro buf resp calls b r cl h dcall hd
    simp only [scopedBranchFold, Except.ok.injEq, Prod.mk.injEq] at h
    rw [← h.2.2] at hd
    exact Or.inl hd
  | cons ns rest ih =>
    intro buf resp calls b r cl h dcall hd
    rw [scopedBranchFold_cons] at h
    cases hscan : getNamespacedResourcesWithFinalizersPendingDeletion env.cluster
        env.filterOpts ns with
    | exitProcess code =>
      rw [hscan] at h
      cases h
    | errored m e =>
      rw [hscan] at h
      rcases ih _ _ _ _ _ _ h dcall hd with h' | h'
      · exact Or.inl h'
      · exact Or.inr ⟨h'.1, List.mem_cons_of_mem _ h'.2⟩
    | ok resourceDiffs =>
      rw [hscan] at h
      rcases ih _ _ _ _ _ _ h dcall hd with h' | h'
      · rcases List.mem_append.mp h' with h'' | h''
        · exact Or.inl h''
        · obtain ⟨hpath, hns⟩ := mem_deleteCallsOf _ _ _ _ _ _ h''
          exact Or.inr ⟨hpath, by rw [hns]; exact List.Mem.head _⟩
      · exact Or.inr ⟨h'.1, List.mem_cons_of_mem _ h'.2⟩

/-- Characterization of a returned global-branch run: all traced delete calls
use the finalizer-aware path on namespaces of the resolved list, and the
response is the scan map restricted to the resolved list. -/
theorem global_branch_ret_char (env : Env) (opts : Opts) (fmt : String)
    (nss : List String) (m : NsMap) (out : String) (err : Option String)
    (buf : String) (resp : NsMap) (calls : List DeleteCall)
    (hnodup : (m.map Prod.fst).Nodup)
    (h : finishRun env fmt
        (globalBranchFold env opts nss m "" [] []).1
        (globalBranchFold env opts nss m "" [] []).2.1
        (globalBranchFold env opts nss m "" [] []).2.2 = .ret out err buf resp calls) :
    (∀ dc ∈ calls, dc.path = DeletePath.withFinalizer ∧ dc.ns ∈ nss) ∧
    resp = m.filter (fun p => nss.contains p.1) := by
  obtain ⟨hb, hr, hcl⟩ := finishRun_ret env fmt _ _ _ _ _ _ _ _ h
  constructor
  · intro dc hdc
    rw [hcl] at hdc
    rcases globalBranchFold_calls_mem env opts nss m "" [] [] dc hdc with h' | h'
    · exact absurd h' (List.not_mem_nil dc)
    · exact h'
  · rw [hr, globalBranchFold_resp env opts nss m "" [] [] (fun p _ => by simp) hnodup]
    simp

/-- C6: `GetUnusedfinalizers` runs global mode exactly when both the include
and the exclude list are empty: the response is then the all-namespaces scan's
map restricted to the resolved namespaces and every delete call uses
`DeleteResourceWithFinalizer`; otherwise the response entries come from
per-namespace scoped scans and every delete call uses the plain
`DeleteResource`. -/
theorem C6_mode_dispatch (env : Env) (lists : IncludeExcludeLists) (opts : Opts)
    (fmt out : String) (err : Option String) (buf : String) (resp : NsMap)
    (calls : List DeleteCall)
    (h : GetUnusedfinalizers env lists opts fmt = .ret out err buf resp calls) :
    (lists.ExcludeListStr = [] ∧ lists.IncludeListStr = [] →
      (∀ dc ∈ calls, dc.path = DeletePath.withFinalizer) ∧
      ∃ gm, scanValue (getResourcesWithFinalizersPendingDeletion env.cluster env.filterOpts
          (env.setNamespaceList lists)) = some gm ∧
        resp = gm.filter (fun p => (env.setNamespaceList lists).contains p.1)) ∧
    (¬(lists.ExcludeListStr = [] ∧ lists.IncludeListStr = []) →
      (∀ dc ∈ calls, dc.path = DeletePath.plain) ∧
      ∀ p ∈ resp, p.1 ∈ env.setNamespaceList lists ∧
        getNamespacedResourcesWithFinalizersPendingDeletion env.cluster env.filterOpts p.1 =
          .ok p.2) := by
  constructor
  · rintro ⟨he, hi⟩
    have hcond : lists.ExcludeListStr.length = 0 ∧ lists.IncludeListStr.length = 0 := by
      simp [he, hi]
    rw [getUnusedfinalizers_global env lists opts fmt hcond] at h
    cases hscan : getResourcesWithFinalizersPendingDeletion env.cluster env.filterOpts
        (env.setNamespaceList lists) with
    | exitProcess code =>
      rw [hscan] at h
      cases h
    | errored m e =>
      rw [hscan] at h
      have hnodup : (m.map Prod.fst).Nodup :=
        nodup_keys_getResources env.cluster env.filterOpts _ m (by rw [hscan]; rfl)
      obtain ⟨hcalls, hresp⟩ := global_branch_ret_char env opts fmt _ m out err buf resp
        calls hnodup h
      exact ⟨fun dc hdc => (hcalls dc hdc).1, m, rfl, hresp⟩
    | ok m =>
      rw [hscan] at h
      have hnodup : (m.map Prod.fst).Nodup :=
        nodup_keys_getResources env.cluster env.filterOpts _ m (by rw [hscan]; rfl)
      obtain ⟨hcalls, hresp⟩ := global_branch_ret_char env opts fmt _ m out err buf resp
        calls hnodup h
      exact ⟨fun dc hdc => (hcalls dc hdc).1, m, rfl, hresp⟩
  · intro hncond
    have hcond' : ¬(lists.ExcludeListStr.length = 0 ∧ lists.IncludeListStr.length = 0) := by
      intro hc
      exact hncond ⟨List.length_eq_zero.mp hc.1, List.length_eq_zero.mp hc.2⟩
    rw [getUnusedfinalizers_scoped env lists opts fmt hcond'] at h
    cases hfold : scopedBranchFold env opts (env.setNamespaceList lists) "" [] [] with
    | error code =>
      rw [hfold] at h
      cases h
    | ok t =>
      obtain ⟨b0, r0, cl0⟩ := t
      rw [hfold] at h
      have h2 : finishRun env fmt b0 r0 cl0 = .ret out err buf resp calls := h
      obtain ⟨hb, hr, hcl⟩ := finishRun_ret env fmt _ _ _ _ _ _ _ _ h2
      constructor
      · intro dc hdc
        rw [hcl] at hdc
        rcases scopedBranchFold_calls_mem env opts _ "" [] [] b0 r0 cl0 hfold dc hdc with
          h' | h'
        · exact absurd h' (List.not_mem_nil dc)
        · exact h'.1
      · intro p hp
        rw [hr] at hp
        rcases scopedBranchFold_resp_mem env opts _ "" [] [] b0 r0 cl0 hfold p hp with
          h' | h'
        · exact absurd h' (List.not_mem_nil p)
        · exact h'

/-- Witness for C6, global side: the concrete global-mode deletion run uses
the finalizer-aware path and filters the scan map by the resolved list. -/
theorem C6_mode_dispatch_witness :
    (∀ dc ∈ [DeleteCall.mk DeletePath.withFinalizer ["cm-a"] "default" "configmaps" true],
      dc.path = DeletePath.withFinalizer) ∧
    ∃ gm, scanValue (getResourcesWithFinalizersPendingDeletion envOne.cluster
        envOne.filterOpts (envOne.setNamespaceList ⟨[], []⟩)) = some gm ∧
      [("default", [("configmaps", ["cm-a"])])] =
        gm.filter (fun p => (envOne.setNamespaceList ⟨[], []⟩).contains p.1) :=
  (C6_mode_dispatch envOne ⟨[], []⟩ ⟨true, true⟩ "json" "rendered" none "\n"
    [("default", [("configmaps", ["cm-a"])])]
    [⟨.withFinalizer, ["cm-a"], "default", "configmaps", true⟩] rfl).1 ⟨rfl, rfl⟩

/-- C10: in global mode, every namespace key of the response and every traced
delete call lies in the list resolved by `SetNamespaceList`; a scan entry
whose namespace is outside that list is absent from the response and never
reaches a delete helper. -/
theorem C10_global_namespace_restriction (env : Env) (lists : IncludeExcludeLists)
    (opts : Opts) (fmt out : String) (err : Option String) (buf : String)
    (resp : NsMap) (calls : List DeleteCall)
    (hmode : lists.ExcludeListStr = [] ∧ lists.IncludeListStr = [])
    (h : GetUnusedfinalizers env lists opts fmt = .ret out err buf resp calls) :
    (∀ p ∈ resp, p.1 ∈ env.setNamespaceList lists) ∧
    (∀ dc ∈ calls, dc.ns ∈ env.setNamespaceList lists) ∧
    ∃ gm, scanValue (getResourcesWithFinalizersPendingDeletion env.cluster env.filterOpts
        (env.setNamespaceList lists)) = some gm ∧
      ∀ p ∈ gm, p.1 ∉ env.setNamespaceList lists →
        p ∉ resp ∧ ∀ dc ∈ calls, dc.ns ≠ p.1 := by
  have hcond : lists.ExcludeListStr.length = 0 ∧ lists.IncludeListStr.length = 0 := by
    simp [hmode.1, hmode.2]
  rw [getUnusedfinalizers_global env lists opts fmt hcond] at h
  cases hscan : getResourcesWithFinalizersPendingDeletion env.cluster env.filterOpts
      (env.setNamespaceList lists) with
  | exitProcess code =>
    rw [hscan] at h
    cases h
  | errored m e =>
    rw [hscan] at h
    have hnodup : (m.map Prod.fst).Nodup :=
      nodup_keys_getResources env.cluster env.filterOpts _ m (by rw [hscan]; rfl)
    obtain ⟨hcalls, hresp⟩ := global_branch_ret_char env opts fmt _ m out err buf resp
      calls hnodup h
    refine ⟨?_, fun dc hdc => (hcalls dc hdc).2, m, rfl, ?_⟩
    · intro p hp
      rw [hresp] at hp
      have := (List.mem_filter.mp hp).2
      exact List.mem_of_elem_eq_true (by simpa using this)
    · intro p hp hout
      constructor
      · intro hin
        rw [hresp] at hin
        exact hout (List.mem_of_elem_eq_true (by simpa using (List.mem_filter.mp hin).2))
      · intro dc hdc he
        exact hout (he ▸ (hcalls dc hdc).2)
  | ok m =>
    rw [hscan] at h
    have hnodup : (m.map Prod.fst).Nodup :=
      nodup_keys_getResources env.cluster env.filterOpts _ m (by rw [hscan]; rfl)
    obtain ⟨hcalls, hresp⟩ := global_branch_ret_char env opts fmt _ m out err buf resp
      calls hnodup h
    refine ⟨?_, fun dc hdc => (hcalls dc hdc).2, m, rfl, ?_⟩
    · intro p hp
      rw [hresp] at hp
      have := (List.mem_filter.mp hp).2
      exact List.mem_of_elem_eq_true (by simpa using this)
    · intro p hp hout
      constructor
      · intro hin
        rw [hresp] at hin
        exact hout (List.mem_of_elem_eq_true (by simpa using (List.mem_filter.mp hin).2))
      · intro dc hdc he
        exact hout (he ▸ (hcalls dc hdc).2)

/-- Witness for C10 at the concrete global-mode deletion run. -/
theorem C10_global_namespace_restriction_witness :
    (∀ p ∈ [("default", [("configmaps", ["cm-a"])])],
      p.1 ∈ envOne.setNamespaceList ⟨[], []⟩) ∧
    (∀ dc ∈ [DeleteCall.mk DeletePath.withFinalizer ["cm-a"] "default" "configmaps" true],
      dc.ns ∈ envOne.setNamespaceList ⟨[], []⟩) ∧
    ∃ gm, scanValue (getResourcesWithFinalizersPendingDeletion envOne.cluster
        envOne.filterOpts (envOne.setNamespaceList ⟨[], []⟩)) = some gm ∧
      ∀ p ∈ gm, p.1 ∉ envOne.setNamespaceList ⟨[], []⟩ →
        p ∉ [("default", [("configmaps", ["cm-a"])])] ∧
        ∀ dc ∈ [DeleteCall.mk DeletePath.withFinalizer ["cm-a"] "default" "configmaps" true],
          dc.ns ≠ p.1 :=
  C10_global_namespace_restriction envOne ⟨[], []⟩ ⟨true, true⟩ "json" "rendered" none "\n"
    [("default", [("configmaps", ["cm-a"])])]
    [⟨.withFinalizer, ["cm-a"], "default", "configmaps", true⟩] ⟨rfl, rfl⟩ rfl

/-- Environment whose cluster has a scanned type but zero matching objects. -/
def envC4 : Env :=
  { cluster :=
      { serverPreferredResources := .ok catalogOne,
        parseGroupVersion := fun _ => .ok (),
        listResource := fun _ _ _ => .ok [] },
    filterOpts := filterOptsTrivial,
    setNamespaceList := fun _ => ["default"],
    deleteResource := fun _ _ _ _ => .ok [],
    deleteResourceWithFinalizer := fun _ _ _ _ => .ok [],
    formatOutputFromMap := fun _ _ => "",
    marshalIndent := fun _ => .ok "json",
    unusedResourceFormatter := fun _ _ _ => ("rendered", none) }

/-- C4 counterexample: in global mode, the resolved namespace `default` was
covered by a successful all-namespaces list of the namespaced, listable type
`configmaps`, yet the final ScanResponse has no key at all — refuting the
claimed "namespace key appears iff at least one resource type under it was
scanned". -/
theorem C4_counterexample :
    GetUnusedfinalizers envC4 ⟨[], []⟩ ⟨false, false⟩ "json" =
      .ret "rendered" none "" [] [] ∧
    envC4.cluster.serverPreferredResources = .ok catalogOne ∧
    cfgRes ∈ (⟨"v1", [cfgRes]⟩ : APIResourceList).apiResources ∧
    cfgRes.namespaced = true ∧
    cfgRes.verbs.contains "list" = true ∧
    envC4.cluster.listResource "v1" cfgRes.name "" = .ok [] ∧
    envC4.setNamespaceList ⟨[], []⟩ = ["default"] ∧
    ("default" ∈ ([] : NsMap).map Prod.fst ↔ False) := by
  refine ⟨rfl, rfl, List.Mem.head _, rfl, rfl, rfl, rfl, by simp⟩

/-- C4 amended: in global mode a namespace is a key of the final ScanResponse
iff it is in the resolved namespace list and the scan map holds at least one
entry for it (so a scanned namespace with zero matches is absent), and every
listed inner map is non-empty with non-empty name lists; in scoped mode a
namespace is a key iff it is in the resolved list and its scoped scan
succeeded — even when the inner mapping is empty — and name lists of listed
types are non-empty, so types with zero matches are absent from the inner
mapping in both modes. -/
theorem C4_amended_response_keys (env : Env) (lists : IncludeExcludeLists)
    (opts : Opts) (fmt out : String) (err : Option String) (buf : String)
    (resp : NsMap) (calls : List DeleteCall) (x : String)
    (h : GetUnusedfinalizers env lists opts fmt = .ret out err buf resp calls) :
    (lists.ExcludeListStr = [] ∧ lists.IncludeListStr = [] →
      (x ∈ resp.map Prod.fst ↔ x ∈ env.setNamespaceList lists ∧
        ∃ gm tm, scanValue (getResourcesWithFinalizersPendingDeletion env.cluster
          env.filterOpts (env.setNamespaceList lists)) = some gm ∧ (x, tm) ∈ gm) ∧
      ∀ p ∈ resp, p.2 ≠ [] ∧ goodTypeMap p.2) ∧
    (¬(lists.ExcludeListStr = [] ∧ lists.IncludeListStr = []) →
      (x ∈ resp.map Prod.fst ↔ x ∈ env.setNamespaceList lists ∧
        ∃ tm, getNamespacedResourcesWithFinalizersPendingDeletion env.cluster
          env.filterOpts x = .ok tm) ∧
      ∀ p ∈ resp, goodTypeMap p.2) := by
  constructor
  · rintro ⟨he, hi⟩
    have hcond : lists.ExcludeListStr.length = 0 ∧ lists.IncludeListStr.length = 0 := by
      simp [he, hi]
    rw [getUnusedfinalizers_global env lists opts fmt hcond] at h
    cases hscan : getResourcesWithFinalizersPendingDeletion env.cluster env.filterOpts
        (env.setNamespaceList lists) with
    | exitProcess code =>
      rw [hscan] at h
      cases h
    | errored m e =>
      rw [hscan] at h
      have hnodup : (m.map Prod.fst).Nodup :=
        nodup_keys_getResources env.cluster env.filterOpts _ m (by rw [hscan]; rfl)
      have hgood : goodNsMap m :=
        goodNsMap_getResources env.cluster env.filterOpts _ m (by rw [hscan]; rfl)
      obtain ⟨hcalls, hresp⟩ := global_branch_ret_char env opts fmt _ m out err buf resp
        calls hnodup h
      constructor
      · constructor
        · intro hx
          rw [hresp, List.mem_map] at hx
          obtain ⟨p, hp, hpx⟩ := hx
          rw [List.mem_filter] at hp
          have hc := hp.2
          rw [hpx] at hc
          refine ⟨List.mem_of_elem_eq_true hc, m, p.2, rfl, ?_⟩
          have hpe : (x, p.2) = p := by rw [← hpx]
          rw [hpe]
          exact hp.1
        · rintro ⟨hxmem, gm, tm, hsv, hgm⟩
          have hgm' : gm = m := by
            simp only [scanValue, Option.some.injEq] at hsv
            exact hsv.symm
          subst hgm'
          rw [hresp, List.mem_map]
          exact ⟨(x, tm), List.mem_filter.mpr ⟨hgm, List.elem_eq_true_of_mem hxmem⟩, rfl⟩
      · intro p hp
        rw [hresp] at hp
        exact hgood p (List.mem_of_mem_filter hp)
    | ok m =>
      rw [hscan] at h
      have hnodup : (m.map Prod.fst).Nodup :=
        nodup_keys_getResources env.cluster env.filterOpts _ m (by rw [hscan]; rfl)
      have hgood : goodNsMap m :=
        goodNsMap_getResources env.cluster env.filterOpts _ m (by rw [hscan]; rfl)
      obtain ⟨hcalls, hresp⟩ := global_branch_ret_char env opts fmt _ m out err buf resp
        calls hnodup h
      constructor
      · constructor
        · intro hx
          rw [hresp, List.mem_map] at hx
          obtain ⟨p, hp, hpx⟩ := hx
          rw [List.mem_filter] at hp
          have hc := hp.2
          rw [hpx] at hc
          refine ⟨List.mem_of_elem_eq_true hc, m, p.2, rfl, ?_⟩
          have hpe : (x, p.2) = p := by rw [← hpx]
          rw [hpe]
          exact hp.1
        · rintro ⟨hxmem, gm, tm, hsv, hgm⟩
          have hgm' : gm = m := by
            simp only [scanValue, Option.some.injEq] at hsv
            exact hsv.symm
          subst hgm'
          rw [hresp, List.mem_map]
          exact ⟨(x, tm), List.mem_filter.mpr ⟨hgm, List.elem_eq_true_of_mem hxmem⟩, rfl⟩
      · intro p hp
        rw [hresp] at hp
        exact hgood p (List.mem_of_mem_filter hp)
  · intro hncond
    have hcond' : ¬(lists.ExcludeListStr.length = 0 ∧ lists.IncludeListStr.length = 0) := by
      intro hc
      exact hncond ⟨List.length_eq_zero.mp hc.1, List.length_eq_zero.mp hc.2⟩
    rw [getUnusedfinalizers_scoped env lists opts fmt hcond'] at h
    cases hfold : scopedBranchFold env opts (env.setNamespaceList lists) "" [] [] with
    | error code =>
      rw [hfold] at h
      cases h
    | ok t =>
      obtain ⟨b0, r0, cl0⟩ := t
      rw [hfold] at h
      have h2 : finishRun env fmt b0 r0 cl0 = .ret out err buf resp calls := h
      obtain ⟨hb, hr, hcl⟩ := finishRun_ret env fmt _ _ _ _ _ _ _ _ h2
      constructor
      · rw [hr, scopedBranchFold_keys env opts _ "" [] [] b0 r0 cl0 hfold x]
        simp
      · intro p hp
        rw [hr] at hp
        rcases scopedBranchFold_resp_mem env opts _ "" [] [] b0 r0 cl0 hfold p hp with
          h' | h'
        · exact absurd h' (List.not_mem_nil p)
        · exact goodTypeMap_getNamespaced env.cluster env.filterOpts p.1 p.2
            (by rw [h'.2]; rfl)

/-- Witness for the amended C4 in scoped mode: the namespace key is present
with its scoped scan's map. -/
theorem C4_amended_response_keys_witness :
    ("default" ∈ [("default", [("configmaps", ["cm-a"])])].map Prod.fst ↔
      "default" ∈ envOne.setNamespaceList ⟨["default"], []⟩ ∧
      ∃ tm, getNamespacedResourcesWithFinalizersPendingDeletion envOne.cluster
        envOne.filterOpts "default" = .ok tm) ∧
    ∀ p ∈ [("default", [("configmaps", ["cm-a"])])], goodTypeMap p.2 :=
  (C4_amended_response_keys envOne ⟨["default"], []⟩ ⟨false, false⟩ "json" "rendered"
    none "\n" [("default", [("configmaps", ["cm-a"])])] [] "default" rfl).2 (by simp)
